import Mathlib

/-
Verification development for the storage-engine components of the
database-homework repository: the LRU-K replacer (lru_k_replacer.cpp),
the extendible hash table (extendible_hash_table.cpp), the buffer pool
manager (buffer_pool_manager_instance.cpp) and the B+Tree index
(b_plus_tree.cpp).  Every definition is a shallow embedding of the
corresponding C++ function; doc strings name the embedded function.
-/

namespace DB

/-! ## Association-list helpers

`std::unordered_map` (the replacer's `frame_table_`) and the extendible
hash table used as the buffer pool's page table are modelled as
association lists keyed by `Nat` or `Int`.  Lookup returns the first
binding; the operations below mirror `find`, in-place update,
`try_emplace` and `erase`. -/

/-- First binding for key `i`, as `std::unordered_map::find`. -/
def lookupKey [DecidableEq κ] : List (κ × α) → κ → Option α
  | [], _ => none
  | (j, v) :: rest, i => if i = j then some v else lookupKey rest i

/-- Apply `f` to the value bound to key `i` (in-place update of a map entry). -/
def updateKey [DecidableEq κ] (l : List (κ × α)) (i : κ) (f : α → α) : List (κ × α) :=
  l.map (fun e => if e.1 = i then (e.1, f e.2) else e)

/-- Remove the binding for key `i`, as `std::unordered_map::erase`. -/
def eraseKey [DecidableEq κ] : List (κ × α) → κ → List (κ × α)
  | [], _ => []
  | (j, v) :: rest, i => if i = j then eraseKey rest i else (j, v) :: eraseKey rest i

/-- Insert element `a` at position `n` (the C++ shift-right-and-store idiom). -/
def insertAt : Nat → α → List α → List α
  | 0, a, l => a :: l
  | _ + 1, a, [] => [a]
  | n + 1, a, x :: xs => x :: insertAt n a xs

/-- Index of the first occurrence of `a`, if any. -/
def idxOf? [DecidableEq α] (a : α) : List α → Option Nat
  | [] => none
  | x :: xs => if x = a then some 0 else (idxOf? a xs).map (· + 1)

/-! ## LRU-K replacer (src/buffer/lru_k_replacer.cpp)

State of `LRUKReplacer`: `frame_table_` maps a frame id to its access
history (a bounded FIFO of timestamps, oldest first) and an
`is_evictable` flag; `current_timestamp_` is the logical clock;
`curr_size_` counts evictable frames; `replacer_size_` bounds frame
ids; `k_` is the history depth. -/

/-- One entry of `frame_table_`: `access_timestamps` (oldest first) and
`is_evictable`. -/
structure FrameRec where
  timestamps : List Nat
  evictable : Bool
deriving DecidableEq

/-- The `LRUKReplacer` state. -/
structure Replacer where
  numFrames : Nat
  k : Nat
  frames : List (Nat × FrameRec)
  currSize : Nat
  now : Nat
deriving DecidableEq

/-- `LRUKReplacer::LRUKReplacer(num_frames, k)` (the `k == 0` throw leaves no object;
claims only use `k ≥ 1`). -/
def Replacer.mkInit (n k : Nat) : Replacer := ⟨n, k, [], 0, 0⟩

/-- Oldest retained timestamp of a frame (`timestamps.front()`, `0` when empty,
mirroring the `timestamps.empty() ? 0 : timestamps.front()` read in `Evict`). -/
def front (h : FrameRec) : Nat := h.timestamps.headD 0

/-- A frame with fewer than `k` recorded accesses ("under-K"). -/
def isUnderK (k : Nat) (h : FrameRec) : Bool := h.timestamps.length < k

/-- Backward k-distance `current_timestamp_ - timestamps.front()` of an
at-least-K frame (`Nat` subtraction; in every reachable state all
timestamps are `≤ now`). -/
def kDist (now : Nat) (h : FrameRec) : Nat := now - front h

/-- The eviction candidate carried by the selection loop of
`LRUKReplacer::Evict`: `candidate`, `found_inf_candidate`,
`candidate_distance`, `candidate_earliest_time`.  `candidate == -1`
is modelled by `Option.none`; when `isInf` is set the stale
`candidate_distance` of the C++ loop is never read, so `dist` is kept at `0`. -/
structure Cand where
  fid : Nat
  isInf : Bool
  dist : Nat
  earliest : Nat
deriving DecidableEq

/-- One iteration of the selection loop in `LRUKReplacer::Evict`
(lines 36-71 of lru_k_replacer.cpp). -/
def evictStep (k now : Nat) (acc : Option Cand) (e : Nat × FrameRec) : Option Cand :=
  if e.2.evictable = false then acc
  else if e.2.timestamps.length < k then
    match acc with
    | none => some ⟨e.1, true, 0, front e.2⟩
    | some cd =>
      if cd.isInf = false then some ⟨e.1, true, 0, front e.2⟩
      else if front e.2 < cd.earliest then some ⟨e.1, true, 0, front e.2⟩
      else some cd
  else
    match acc with
    | none => some ⟨e.1, false, now - front e.2, front e.2⟩
    | some cd =>
      if cd.isInf then some cd
      else if cd.dist < now - front e.2 then some ⟨e.1, false, now - front e.2, front e.2⟩
      else if now - front e.2 = cd.dist ∧ front e.2 < cd.earliest then
        some ⟨e.1, false, cd.dist, front e.2⟩
      else some cd

/-- The full selection loop of `LRUKReplacer::Evict` over `frame_table_`
(the container's unspecified iteration order is modelled by list order;
the selected frame is order-independent on reachable states). -/
def Replacer.evictChoice (r : Replacer) : Option Cand :=
  r.frames.foldl (evictStep r.k r.now) none

/-- `LRUKReplacer::Evict`: returns the chosen frame id and the post-state
(the chosen frame's entire history is erased, `curr_size_` decremented). -/
def Replacer.evict (r : Replacer) : Option Nat × Replacer :=
  if r.currSize = 0 then (none, r)
  else
    match r.evictChoice with
    | none => (none, r)
    | some cd =>
      (some cd.fid, { r with frames := eraseKey r.frames cd.fid, currSize := r.currSize - 1 })

/-- Append the new timestamp and retain at most `k` (the
`push_back` / `pop_front` pair in `RecordAccess`). -/
def pushTs (ts : List Nat) (k t : Nat) : List Nat :=
  if (ts ++ [t]).length > k then (ts ++ [t]).tail else ts ++ [t]

/-- `LRUKReplacer::RecordAccess`: invalid frame ids throw before any
mutation (modelled as the unchanged state); otherwise the clock advances,
a missing entry is created non-evictable (`try_emplace` + explicit
`is_evictable = false`), and the timestamp is recorded. -/
def Replacer.recordAccess (r : Replacer) (fid : Nat) : Replacer :=
  if r.numFrames ≤ fid then r
  else
    match lookupKey r.frames fid with
    | none =>
      { r with now := r.now + 1,
               frames := (fid, ⟨pushTs [] r.k (r.now + 1), false⟩) :: r.frames }
    | some _ =>
      { r with now := r.now + 1,
               frames := updateKey r.frames fid
                 (fun h => { h with timestamps := pushTs h.timestamps r.k (r.now + 1) }) }

/-- `LRUKReplacer::SetEvictable`: no-op on invalid or untracked frames and on
unchanged state; otherwise flips the flag and adjusts `curr_size_`. -/
def Replacer.setEvictable (r : Replacer) (fid : Nat) (b : Bool) : Replacer :=
  if r.numFrames ≤ fid then r
  else
    match lookupKey r.frames fid with
    | none => r
    | some h =>
      if h.evictable = b then r
      else
        { r with frames := updateKey r.frames fid (fun h => { h with evictable := b }),
                 currSize := if b then r.currSize + 1 else r.currSize - 1 }

/-- `LRUKReplacer::Remove`: no-op on invalid or untracked frames; removing a
non-evictable frame throws before any mutation (modelled as the unchanged
state); otherwise the entry is erased and `curr_size_` decremented. -/
def Replacer.removeFrame (r : Replacer) (fid : Nat) : Replacer :=
  if r.numFrames ≤ fid then r
  else
    match lookupKey r.frames fid with
    | none => r
    | some h =>
      if h.evictable then
        { r with frames := eraseKey r.frames fid, currSize := r.currSize - 1 }
      else r

/-- `LRUKReplacer::Size` returns `curr_size_`. -/
def Replacer.size (r : Replacer) : Nat := r.currSize

/-- Number of tracked frames whose `is_evictable` flag is set. -/
def countEvictable (l : List (Nat × FrameRec)) : Nat :=
  (l.filter (fun e => e.2.evictable)).length

/-- Reachable-state invariant of the replacer: frame ids are distinct and
`curr_size_` counts the evictable entries. -/
def ReplWF (r : Replacer) : Prop :=
  (r.frames.map Prod.fst).Nodup ∧ r.currSize = countEvictable r.frames

instance (r : Replacer) : Decidable (ReplWF r) := by
  unfold ReplWF
  infer_instance

/-! ## Extendible hash table (src/container/hash/extendible_hash_table.cpp)

`ExtendibleHashTable<K,V>` instantiated at integer keys.  `shared_ptr`
aliasing between directory slots is modelled by bucket ids: `dir` holds
bucket ids, `buckets` maps ids to bucket contents, and pointer equality
(`directory_[i] == old_bucket`) becomes id equality. -/

/-- `std::hash<int>` on the non-negative keys used by the repository
(libstdc++ hashes an `int` to itself). -/
def hashK (k : Nat) : Nat := k

/-- One `Bucket`: its local `depth_` and the `items_` list (insertion order). -/
structure EBucket where
  depth : Nat
  items : List (Nat × Nat)
deriving DecidableEq

/-- The `ExtendibleHashTable` state.  `nextBid` supplies fresh bucket ids
(fresh `shared_ptr` identities). -/
structure EHT where
  globalDepth : Nat
  bucketSize : Nat
  nextBid : Nat
  buckets : List (Nat × EBucket)
  dir : List Nat
deriving DecidableEq

/-- The constructor: `global_depth_ = 0`, one empty bucket, directory of size 1. -/
def EHT.mkInit (bucketSize : Nat) : EHT :=
  ⟨0, bucketSize, 1, [(0, ⟨0, []⟩)], [0]⟩

/-- `Bucket::Insert`: upsert an existing key; fail (`none`) when full;
otherwise append.  (`some` is the `true` return.) -/
def bucketInsert (maxSize : Nat) (b : EBucket) (k v : Nat) : Option EBucket :=
  if b.items.any (fun e => e.1 = k) then
    some { b with items := b.items.map (fun e => if e.1 = k then (k, v) else e) }
  else if maxSize ≤ b.items.length then none
  else some { b with items := b.items ++ [(k, v)] }

/-- `IndexOf(key)`: `hash(key) & ((1 << global_depth_) - 1)`, i.e. the low
`global_depth_` bits. -/
def ehtIndexOf (t : EHT) (k : Nat) : Nat := hashK k % 2 ^ t.globalDepth

/-- `ExtendibleHashTable::SplitBucket(directory_index)`: two fresh buckets of
depth `d+1`, items redistributed by bit `d` of the hash (both halves fit,
so the inner `Bucket::Insert` calls never fail), and every directory slot
that aliased the old bucket rewritten by bit `d` of the slot index. -/
def splitBucket (t : EHT) (idx : Nat) : EHT :=
  let oldBid := t.dir.getD idx 0
  match lookupKey t.buckets oldBid with
  | none => t
  | some b =>
    let d := b.depth
    let itemsA := b.items.filter (fun e => (hashK e.1).testBit d = false)
    let itemsB := b.items.filter (fun e => (hashK e.1).testBit d = true)
    let bidA := t.nextBid
    let bidB := t.nextBid + 1
    { t with
      nextBid := t.nextBid + 2,
      buckets := (bidB, ⟨d + 1, itemsB⟩) :: (bidA, ⟨d + 1, itemsA⟩) :: t.buckets,
      dir := t.dir.enum.map (fun e =>
        if e.2 = oldBid then (if e.1.testBit d then bidB else bidA) else e.2) }

/-- `ExtendibleHashTable::Insert`: the retry loop, fuelled.  A full bucket at
maximal local depth first doubles the directory (duplicating every pointer
into the upper half) and bumps `global_depth_`; then the bucket at the
originally computed directory index is split and the insert retried. -/
def ehtInsert : Nat → EHT → Nat → Nat → EHT
  | 0, t, _, _ => t
  | fuel + 1, t, k, v =>
    let idx := ehtIndexOf t k
    let bid := t.dir.getD idx 0
    match lookupKey t.buckets bid with
    | none => t
    | some b =>
      match bucketInsert t.bucketSize b k v with
      | some b2 => { t with buckets := updateKey t.buckets bid (fun _ => b2) }
      | none =>
        let t2 :=
          if b.depth = t.globalDepth then
            { t with dir := t.dir ++ t.dir, globalDepth := t.globalDepth + 1 }
          else t
        ehtInsert fuel (splitBucket t2 idx) k v

/-- `ExtendibleHashTable::GetNumBuckets`: deduplicate the directory's bucket
references (pointer comparison becomes id comparison) and count them. -/
def ehtNumBuckets (t : EHT) : Nat :=
  (t.dir.foldl (fun acc bid => if bid ∈ acc then acc else acc ++ [bid]) []).length

/-- `ExtendibleHashTable::Find` (via `Bucket::Find`). -/
def ehtFind (t : EHT) (k : Nat) : Option Nat :=
  match lookupKey t.buckets (t.dir.getD (ehtIndexOf t k) 0) with
  | none => none
  | some b => lookupKey b.items k

/-! ## Buffer pool manager (src/buffer/buffer_pool_manager_instance.cpp)

`BufferPoolManagerInstance`: `pages_` (the frame array), the page table
(an `ExtendibleHashTable<page_id_t, frame_id_t>` used purely as a map,
modelled here as an association list), the LRU-K replacer, the free
list, `next_page_id_`, and the disk manager's stable page store. -/

/-- Per-frame metadata and data of one `Page` in `pages_`. -/
structure Frame where
  pageId : Int
  pinCount : Nat
  isDirty : Bool
  data : List Nat
deriving DecidableEq

/-- A vacant frame (`page_id_ = INVALID_PAGE_ID`, zeroed). -/
def frameDefault : Frame := ⟨-1, 0, false, []⟩

/-- The buffer pool state, together with the disk manager's page store
(`disk`).  A page never written reads back as the empty/zeroed block `[]`. -/
structure BPM where
  poolSize : Nat
  nextPageId : Int
  frames : List Frame
  pageTable : List (Int × Nat)
  freeList : List Nat
  repl : Replacer
  disk : List (Int × List Nat)
deriving DecidableEq

/-- The constructor: all frames vacant and on the free list, empty page
table, fresh replacer, `next_page_id_ = 0`. -/
def BPM.mkInit (n k : Nat) : BPM :=
  ⟨n, 0, List.replicate n frameDefault, [], List.range n, Replacer.mkInit n k, []⟩

/-- `DiskManager::WritePage`. -/
def diskWrite (disk : List (Int × List Nat)) (pid : Int) (d : List Nat) : List (Int × List Nat) :=
  match lookupKey disk pid with
  | some _ => updateKey disk pid (fun _ => d)
  | none => (pid, d) :: disk

/-- `DiskManager::ReadPage` (never-written pages read as `[]`). -/
def diskRead (disk : List (Int × List Nat)) (pid : Int) : List Nat :=
  (lookupKey disk pid).getD []

/-- Replace frame `fid` in the frame array. -/
def setFrame (frames : List Frame) (fid : Nat) (fr : Frame) : List Frame :=
  frames.set fid fr

/-- Page-table insert.  `ExtendibleHashTable::Insert` upserts an existing key. -/
def ptInsert (pt : List (Int × Nat)) (pid : Int) (fid : Nat) : List (Int × Nat) :=
  match lookupKey pt pid with
  | some _ => updateKey pt pid (fun _ => fid)
  | none => (pid, fid) :: pt

/-- The frame-acquisition step shared verbatim by `NewPgImp` and
`FetchPgImp`: pop the free list if non-empty, otherwise evict; write back
a dirty victim and drop its page-table binding. -/
def BPM.acquire (st : BPM) : Option (Nat × BPM) :=
  match st.freeList with
  | fid :: rest => some (fid, { st with freeList := rest })
  | [] =>
    match st.repl.evict with
    | (none, _) => none
    | (some fid, r2) =>
      let fr := st.frames.getD fid frameDefault
      let st2 :=
        if fr.isDirty then
          { st with repl := r2,
                    disk := diskWrite st.disk fr.pageId fr.data,
                    frames := setFrame st.frames fid { fr with isDirty := false } }
        else { st with repl := r2 }
      some (fid, { st2 with pageTable := eraseKey st2.pageTable fr.pageId })

/-- `BufferPoolManagerInstance::NewPgImp`: acquire a frame (or fail),
allocate `*page_id = next_page_id_++`, reset the frame, pin it, insert
into the page table, record access and mark non-evictable.  Returns the
new page id and its frame. -/
def BPM.newPage (st : BPM) : Option (Int × Nat) × BPM :=
  match st.acquire with
  | none => (none, st)
  | some (fid, st1) =>
    let pid := st1.nextPageId
    let st2 := { st1 with
      nextPageId := pid + 1,
      frames := setFrame st1.frames fid ⟨pid, 1, false, []⟩,
      pageTable := ptInsert st1.pageTable pid fid }
    (some (pid, fid), { st2 with repl := (st2.repl.recordAccess fid).setEvictable fid false })

/-- `BufferPoolManagerInstance::FetchPgImp`: a resident page is pinned again
and its access recorded; otherwise a frame is acquired, the page read from
disk into it, pinned, mapped and recorded. -/
def BPM.fetchPage (st : BPM) (pid : Int) : Option Nat × BPM :=
  match lookupKey st.pageTable pid with
  | some fid =>
    let fr := st.frames.getD fid frameDefault
    (some fid, { st with
      frames := setFrame st.frames fid { fr with pinCount := fr.pinCount + 1 },
      repl := (st.repl.recordAccess fid).setEvictable fid false })
  | none =>
    match st.acquire with
    | none => (none, st)
    | some (fid, st1) =>
      (some fid, { st1 with
        frames := setFrame st1.frames fid ⟨pid, 1, false, diskRead st1.disk pid⟩,
        pageTable := ptInsert st1.pageTable pid fid,
        repl := (st1.repl.recordAccess fid).setEvictable fid false })

/-- `BufferPoolManagerInstance::UnpinPgImp`: fails with the state unchanged
when the page is not resident or its pin count is 0; otherwise decrements
the pin count, ORs the dirty flag in, and marks the frame evictable
exactly when the pin count reaches 0. -/
def BPM.unpinPage (st : BPM) (pid : Int) (dirty : Bool) : Bool × BPM :=
  match lookupKey st.pageTable pid with
  | none => (false, st)
  | some fid =>
    let fr := st.frames.getD fid frameDefault
    if fr.pinCount = 0 then (false, st)
    else
      let fr2 : Frame := { fr with pinCount := fr.pinCount - 1, isDirty := fr.isDirty || dirty }
      let st1 := { st with frames := setFrame st.frames fid fr2 }
      if fr.pinCount - 1 = 0 then (true, { st1 with repl := st1.repl.setEvictable fid true })
      else (true, st1)

/-- `BufferPoolManagerInstance::FlushPgImp`: unconditional write-back of a
resident page (fails on `INVALID_PAGE_ID` or a non-resident page), then
clears the dirty flag. -/
def BPM.flushPage (st : BPM) (pid : Int) : Bool × BPM :=
  if pid = -1 then (false, st)
  else
    match lookupKey st.pageTable pid with
    | none => (false, st)
    | some fid =>
      let fr := st.frames.getD fid frameDefault
      (true, { st with disk := diskWrite st.disk pid fr.data,
                       frames := setFrame st.frames fid { fr with isDirty := false } })

/-- `BufferPoolManagerInstance::FlushAllPgsImp` (literal translation: the
loop writes `pages_[i]`'s data whenever `pages_[i]` has a valid id, the
page table maps that id to some `frame_id`, and `pages_[frame_id]` is
dirty). -/
def BPM.flushAll (st : BPM) : BPM :=
  (List.range st.poolSize).foldl
    (fun s i =>
      let fr := s.frames.getD i frameDefault
      if fr.pageId = -1 then s
      else
        match lookupKey s.pageTable fr.pageId with
        | none => s
        | some fid =>
          if (s.frames.getD fid frameDefault).isDirty then
            { s with disk := diskWrite s.disk fr.pageId fr.data,
                     frames := setFrame s.frames i { fr with isDirty := false } }
          else s)
    st

/-- `BufferPoolManagerInstance::DeletePgImp`: non-resident pages succeed
trivially (`DeallocatePage` is a no-op); pinned pages fail; otherwise a
dirty page is written back, the page leaves the page table and replacer,
the frame is reset and returned to the free list. -/
def BPM.deletePage (st : BPM) (pid : Int) : Bool × BPM :=
  match lookupKey st.pageTable pid with
  | none => (true, st)
  | some fid =>
    let fr := st.frames.getD fid frameDefault
    if 0 < fr.pinCount then (false, st)
    else
      let st1 := if fr.isDirty then { st with disk := diskWrite st.disk pid fr.data } else st
      (true, { st1 with
        pageTable := eraseKey st1.pageTable pid,
        repl := st1.repl.removeFrame fid,
        frames := setFrame st1.frames fid frameDefault,
        freeList := st1.freeList ++ [fid] })

/-- A caller writing `bytes` through `Page::GetData()` into a pinned frame
(the `memcpy` in the buffer-pool round-trip scenario). -/
def BPM.writeData (st : BPM) (fid : Nat) (bytes : List Nat) : BPM :=
  let fr := st.frames.getD fid frameDefault
  { st with frames := setFrame st.frames fid { fr with data := bytes } }

/-- `HEADER_PAGE_ID` (common/config.h; spec §6): the page holding the
B+Tree's `(index_name, root_page_id)` records, fetched by
`BPlusTree::UpdateRootPageId`. -/
def headerPageId : Int := 0

/-! ## B+Tree index (src/storage/index/b_plus_tree.cpp)

The tree is generic over a totally ordered key; the claims use integer
keys, so keys and values are `Nat` (the repository instantiates
`GenericKey`/`RID`; `comparator_(a,b) < 0` is `a < b`).  Pages live in a
page store keyed by `page_id_t` (`Int`, `INVALID_PAGE_ID = -1`); the
buffer pool is abstracted to this store with a fresh-id counter.  Pin
bookkeeping surfaces in exactly two places: every `DeletePage` the tree
issues targets a still-pinned page and fails (see `deletePageT`), and
the unpins skipped when an exception unwinds have no store effect.
An internal page's slot-0 key is never consulted by the code, so an
internal node is represented as its slot-0 child (`firstChild`) plus the
list of `(key, child)` pairs from slot 1 on.
This fork's `BPlusTreeInternalPage::KeyAt`/`ValueAt`/`SetValueAt` throw
`std::out_of_range` when `index < 0 || index >= GetSize()`
(b_plus_tree_internal_page.cpp; the leaf page's accessors are
unchecked), which aborts the internal-split path of `InsertIntoParent`
mid-split — see `insertIntoParent` below. -/

/-- A `BPlusTreeLeafPage`: the `(key, value)` array, `parent_page_id_`,
`next_page_id_`. -/
structure LeafNode where
  kvs : List (Nat × Nat)
  parent : Int
  next : Int
deriving DecidableEq

/-- A `BPlusTreeInternalPage`: slot-0 child, slots 1.. as `(key, child)`
pairs, `parent_page_id_`. -/
structure InternalNode where
  firstChild : Int
  entries : List (Nat × Int)
  parent : Int
deriving DecidableEq

/-- A B+Tree page, `page_type_ ∈ {leaf, internal}`.  `internalEmpty` is a
freshly `Init`-ed internal page — `size_ = 0`, only the header written,
the argument its `parent_page_id_` (set by `Split`).  It is produced
only by the aborted internal split (see `insertIntoParent`) and, being
unreachable from the root, is never consulted afterwards. -/
inductive BNode where
  | leaf : LeafNode → BNode
  | internal : InternalNode → BNode
  | internalEmpty : Int → BNode
deriving DecidableEq

/-- The `BPlusTree` state: the page store, `root_page_id_`, the fresh-page
counter of the underlying pool, `leaf_max_size_` and `internal_max_size_`. -/
structure BTree where
  pages : List (Int × BNode)
  rootId : Int
  nextId : Int
  leafMax : Nat
  internalMax : Nat
deriving DecidableEq

/-- An empty tree (`root_page_id_ = INVALID_PAGE_ID`). -/
def BTree.mkEmpty (leafMax internalMax : Nat) : BTree := ⟨[], -1, 0, leafMax, internalMax⟩

/-- Fetch a page from the store. -/
def getPage (st : BTree) (pid : Int) : Option BNode := lookupKey st.pages pid

/-- Overwrite a resident page. -/
def setNode (st : BTree) (pid : Int) (n : BNode) : BTree :=
  { st with pages := updateKey st.pages pid (fun _ => n) }

/-- `GetParentPageId` of either page kind. -/
def nodeParentOf : BNode → Int
  | .leaf lf => lf.parent
  | .internal nd => nd.parent
  | .internalEmpty par => par

/-- A node with its `parent_page_id_` overwritten. -/
def withParent (n : BNode) (p : Int) : BNode :=
  match n with
  | .leaf lf => .leaf { lf with parent := p }
  | .internal nd => .internal { nd with parent := p }
  | .internalEmpty _ => .internalEmpty p

/-- `SetParentPageId` on the page with id `pid`. -/
def setParent (st : BTree) (pid : Int) (p : Int) : BTree :=
  { st with pages := updateKey st.pages pid (fun n => withParent n p) }

/-- `GetSize` (for an internal page: the number of children). -/
def nodeSize : BNode → Nat
  | .leaf lf => lf.kvs.length
  | .internal nd => 1 + nd.entries.length
  | .internalEmpty _ => 0

/-- Modelled from the spec: `BPlusTreePage::GetMinSize` — the header
`b_plus_tree_page.cpp` is not among the provided sources; spec §4.4 fixes
`min_size = ⌈max_size/2⌉` for both leaves and internal nodes (counting
children for the latter). -/
def minSizeOf (maxSize : Nat) : Nat := (maxSize + 1) / 2

/-- `GetMinSize` of a page in tree `st`. -/
def nodeMin (st : BTree) : BNode → Nat
  | .leaf _ => minSizeOf st.leafMax
  | .internal _ => minSizeOf st.internalMax
  | .internalEmpty _ => minSizeOf st.internalMax

/-- The child list of an internal page, slot 0 first. -/
def childIds (nd : InternalNode) : List Int := nd.firstChild :: nd.entries.map Prod.snd

/-- The descent step of `FindLeafPage` (the `while (child_index < size &&
KeyAt(child_index) <= key) child_index++` scan; descends into
`ValueAt(child_index - 1)`). -/
def childScan (prev : Int) (es : List (Nat × Int)) (key : Nat) : Int :=
  match es with
  | [] => prev
  | (k, v) :: rest => if k ≤ key then childScan v rest key else prev

/-- `BPlusTree::FindLeafPage` (non-leftmost variant), fuelled by the tree
height. -/
def findLeafId (st : BTree) (key : Nat) : Nat → Int → Option Int
  | 0, _ => none
  | fuel + 1, pid =>
    match getPage st pid with
    | some (.leaf _) => some pid
    | some (.internal nd) => findLeafId st key fuel (childScan nd.firstChild nd.entries key)
    | some (.internalEmpty _) => none
    | none => none

/-- The in-order insert position in a leaf: the first index whose key
exceeds the new key, else the size (`insert_pos` in `InsertIntoLeaf`). -/
def leafInsertPos (kvs : List (Nat × Nat)) (key : Nat) : Nat :=
  match kvs with
  | [] => 0
  | (k, _) :: rest => if key < k then 0 else leafInsertPos rest key + 1

/-- `BPlusTree::StartNewTree`: a fresh leaf root holding the single pair. -/
def startNewTree (st : BTree) (k v : Nat) : BTree :=
  let pid := st.nextId
  { st with pages := (pid, .leaf ⟨[(k, v)], -1, -1⟩) :: st.pages,
            nextId := st.nextId + 1,
            rootId := pid }

/-- The `insert_index` computed in `InsertIntoParent`: one past the slot
whose child pointer equals the old node's id, defaulting to `GetSize()`. -/
def parentInsertIdx (p : InternalNode) (oldId : Int) : Nat :=
  ((idxOf? oldId (childIds p)).map (· + 1)).getD (1 + p.entries.length)

/-- `BPlusTree::InsertIntoParent`, fuelled by the tree height; returns the
page store together with a flag that is `true` exactly when the call
throws `std::out_of_range` (the store is then the state at the moment of
the throw, mutations up to it kept — C++ exceptions do not roll back).
A root split creates a new internal root over the two children (its size
is set to 2 before the `SetValueAt` calls, so that path does not throw);
a non-full parent takes the `(key, new_child)` pair in place
(`IncreaseSize(1)` precedes the shifted writes, all in range).  A FULL
parent begins to split: the logical `size + 1` array is built in temp
arrays, `Split(InternalPage*)` allocates a fresh sibling (`Init` leaves
its size 0, `SetParentPageId` copies the parent pointer), and the loop
at b_plus_tree.cpp:706-710 copies the first
`split_index = (parent_size + 1) / 2` entries back and truncates the
original node (`SetSize(split_index)`).  Then line 713 runs
`new_internal_node->SetValueAt(0, temp_values[split_index])` while the
sibling's size is still 0 (`SetSize` on the sibling comes only at line
718), and `BPlusTreeInternalPage::SetValueAt` throws `std::out_of_range`:
the split never completes — no key is promoted, no children move to the
sibling or have `parent_page_id` rewritten, and no upward recursion
happens.  The exception propagates out of `Insert` uncaught. -/
def insertIntoParent : Nat → BTree → Int → Nat → Int → BTree × Bool
  | 0, st, _, _, _ => (st, false)
  | _ + 1, st, oldId, key, newId =>
    match getPage st oldId with
    | none => (st, false)
    | some oldNode =>
      if nodeParentOf oldNode = -1 then
        let rootId := st.nextId
        let st1 := { st with
          pages := (rootId, .internal ⟨oldId, [(key, newId)], -1⟩) :: st.pages,
          nextId := st.nextId + 1 }
        let st2 := setParent st1 oldId rootId
        let st3 := setParent st2 newId rootId
        ({ st3 with rootId := rootId }, false)
      else
        let parentId := nodeParentOf oldNode
        match getPage st parentId with
        | some (.internal p) =>
          let ii := parentInsertIdx p oldId
          if 1 + p.entries.length < st.internalMax then
            let st1 := setNode st parentId (.internal
              { p with entries := insertAt (ii - 1) (key, newId) p.entries })
            (setParent st1 newId parentId, false)
          else
            let temp := insertAt (ii - 1) (key, newId) p.entries
            let si := (1 + p.entries.length + 1) / 2
            let st1 := { st with
              nextId := st.nextId + 1,
              pages := (st.nextId, .internalEmpty p.parent) :: st.pages }
            (setNode st1 parentId (.internal { p with entries := temp.take (si - 1) }), true)
        | _ => (st, false)

/-- `BPlusTree::InsertIntoLeaf` (with `Split(LeafPage*)` inlined at its call
site): duplicate keys are rejected; a non-full leaf takes the pair
in-order; a full leaf builds the logical `size+1` array, allocates a
sibling spliced into the leaf chain, keeps the first
`(new_size + 1) / 2` entries, moves the rest (the leaf page's setters
are unchecked, so the leaf split itself never throws), and propagates
`(new_leaf.KeyAt(0), new_leaf)` to the parent.  The Boolean is `true`
exactly when that `InsertIntoParent` call throws; the unpins it skips
while unwinding have no counterpart in this store model. -/
def insertIntoLeaf (fuel : Nat) (st : BTree) (key v : Nat) : BTree × Bool :=
  match findLeafId st key fuel st.rootId with
  | none => (st, false)
  | some leafId =>
    match getPage st leafId with
    | some (.leaf lf) =>
      if lf.kvs.any (fun e => e.1 = key) then (st, false)
      else
        let pos := leafInsertPos lf.kvs key
        if lf.kvs.length < st.leafMax then
          (setNode st leafId (.leaf { lf with kvs := insertAt pos (key, v) lf.kvs }), false)
        else
          let temp := insertAt pos (key, v) lf.kvs
          let si := (lf.kvs.length + 1 + 1) / 2
          let newPid := st.nextId
          let st1 := { st with
            nextId := st.nextId + 1,
            pages := (newPid, .leaf ⟨temp.drop si, lf.parent, lf.next⟩) :: st.pages }
          let st2 := setNode st1 leafId (.leaf ⟨temp.take si, lf.parent, newPid⟩)
          insertIntoParent fuel st2 leafId (((temp.get? si).getD (0, 0)).1) newPid
    | _ => (st, false)

/-- `BPlusTree::Insert`, with the page store it leaves behind and whether
the call let a `std::out_of_range` propagate to the caller. -/
def BTree.insertKVEx (st : BTree) (fuel key v : Nat) : BTree × Bool :=
  if st.rootId = -1 then (startNewTree st key v, false) else insertIntoLeaf fuel st key v

/-- The page store `BPlusTree::Insert` leaves behind. -/
def BTree.insertKV (st : BTree) (fuel key v : Nat) : BTree :=
  (st.insertKVEx fuel key v).1

/-- Insert a list of keys in order, each key its own value (as the
insert scenarios do). -/
def BTree.insertMany (st : BTree) (fuel : Nat) (ks : List Nat) : BTree :=
  ks.foldl (fun s k => s.insertKV fuel k k) st

/-- `BPlusTree::DeleteFromLeaf`: close the gap over the matched key;
`none` when the key is absent. -/
def removeKeyFromKvs (kvs : List (Nat × Nat)) (key : Nat) : Option (List (Nat × Nat)) :=
  match kvs with
  | [] => none
  | e :: rest =>
    if e.1 = key then some rest
    else (removeKeyFromKvs rest key).map (e :: ·)

/-- `BufferPoolManager::DeletePage` as called by the tree.  At every tree
call site — `Coalesce` deleting the emptied right node, `AdjustRoot`
deleting the old root — the victim page is still pinned (the
`FindLeafPage`/sibling/parent fetches that pinned it are unpinned only
after `CoalesceOrRedistribute` returns), so `DeletePgImp` takes its
`GetPinCount() > 0` branch and returns `false` without mutating
anything: the call is a no-op on the page store, and the page lingers
with its last contents, unreachable from the root and never reclaimed. -/
def deletePageT (st : BTree) (_pid : Int) : BTree := st

/-- Overwrite the key of entry `i` (`InternalPage::SetKeyAt(i+1, k)`). -/
def setEntryKey (es : List (Nat × Int)) (i : Nat) (k : Nat) : List (Nat × Int) :=
  match es, i with
  | [], _ => []
  | e :: rest, 0 => (k, e.2) :: rest
  | e :: rest, i + 1 => e :: setEntryKey rest i k

/-- `BPlusTree::AdjustRoot`: an internal root with a single child promotes
that child (clearing its parent) and deletes itself; an empty leaf root
empties the tree; otherwise nothing happens. -/
def adjustRoot (st : BTree) (nodeId : Int) : BTree :=
  match getPage st nodeId with
  | some (.internal nd) =>
    if nd.entries.length = 0 then
      let st1 := setParent st nd.firstChild (-1)
      deletePageT { st1 with rootId := nd.firstChild } nodeId
    else st
  | some (.leaf lf) =>
    if lf.kvs.length = 0 then deletePageT { st with rootId := -1 } nodeId
    else st
  | some (.internalEmpty _) => st
  | none => st

/-- `BPlusTree::Redistribute`: move one element across a sibling boundary.
`index` is the parent slot of the right-hand node of the pair;
`fromLeft` says the neighbour is the left sibling. -/
def redistribute (st : BTree) (neighborId nodeId parentId : Int) (index : Nat)
    (fromLeft : Bool) : BTree :=
  match getPage st nodeId, getPage st neighborId, getPage st parentId with
  | some (.leaf lf), some (.leaf nb), some (.internal p) =>
    if fromLeft then
      let last := nb.kvs.getLastD (0, 0)
      let st1 := setNode st nodeId (.leaf { lf with kvs := last :: lf.kvs })
      let st2 := setNode st1 neighborId (.leaf { nb with kvs := nb.kvs.dropLast })
      setNode st2 parentId (.internal { p with entries := setEntryKey p.entries (index - 1) last.1 })
    else
      let first := nb.kvs.headD (0, 0)
      let st1 := setNode st nodeId (.leaf { lf with kvs := lf.kvs ++ [first] })
      let st2 := setNode st1 neighborId (.leaf { nb with kvs := nb.kvs.tail })
      setNode st2 parentId (.internal
        { p with entries := setEntryKey p.entries (index - 1) ((nb.kvs.tail.headD (0, 0)).1) })
  | some (.internal nd), some (.internal nb), some (.internal p) =>
    if fromLeft then
      let sepKey := (p.entries.getD (index - 1) (0, -1)).1
      let lastE := nb.entries.getLastD (0, -1)
      let st1 := setNode st nodeId (.internal
        ⟨lastE.2, (sepKey, nd.firstChild) :: nd.entries, nd.parent⟩)
      let st2 := setParent st1 lastE.2 nodeId
      let st3 := setNode st2 parentId (.internal
        { p with entries := setEntryKey p.entries (index - 1) lastE.1 })
      setNode st3 neighborId (.internal { nb with entries := nb.entries.dropLast })
    else
      let sepKey := (p.entries.getD (index - 1) (0, -1)).1
      let st1 := setNode st nodeId (.internal
        { nd with entries := nd.entries ++ [(sepKey, nb.firstChild)] })
      let st2 := setParent st1 nb.firstChild nodeId
      let st3 := setNode st2 parentId (.internal
        { p with entries := setEntryKey p.entries (index - 1) ((nb.entries.headD (0, -1)).1) })
      setNode st3 neighborId (.internal
        ⟨(nb.entries.headD (0, -1)).2, nb.entries.tail, nb.parent⟩)
  | _, _, _ => st

/-- The merge phase of `BPlusTree::Coalesce` (everything before its tail
recursion into `CoalesceOrRedistribute(parent)`): append the right node
to the left (for internals pulling the parent separator down and
reparenting every moved child), fix the leaf chain, delete the right
page, and remove the separator entry from the parent
(`DeleteFromInternal(parent, index)`).  The leaf branch uses only the
unchecked leaf setters and cannot throw; the internal branch's C++
would throw out of `left_internal->SetValueAt(left_size, ·)` (index =
size), but it is unreachable — it needs height ≥ 3, which would require
a completed internal split — so its completed-merge model is inert. -/
def coalesceStep (st : BTree) (leftId rightId parentId : Int) (index : Nat) : BTree :=
  match getPage st leftId, getPage st rightId, getPage st parentId with
  | some (.leaf l), some (.leaf r), some (.internal p) =>
    let st1 := setNode st leftId (.leaf { l with kvs := l.kvs ++ r.kvs, next := r.next })
    let st2 := deletePageT st1 rightId
    setNode st2 parentId (.internal { p with entries := p.entries.eraseIdx (index - 1) })
  | some (.internal l), some (.internal r), some (.internal p) =>
    let sepKey := (p.entries.getD (index - 1) (0, -1)).1
    let st1 := setNode st leftId (.internal
      { l with entries := l.entries ++ (sepKey, r.firstChild) :: r.entries })
    let st2 := (childIds r).foldl (fun s c => setParent s c leftId) st1
    let st3 := deletePageT st2 rightId
    setNode st3 parentId (.internal { p with entries := p.entries.eraseIdx (index - 1) })
  | _, _, _ => st

/-- `BPlusTree::CoalesceOrRedistribute`, fuelled by the tree height: the
root is handled by `AdjustRoot`; a node at or above `min_size` is left
alone; otherwise the left sibling (if any, else the right) donates one
element when it is above `min_size` and is merged with otherwise, after
which the parent is rebalanced recursively. -/
def coalesceOrRedistribute : Nat → BTree → Int → BTree
  | 0, st, _ => st
  | fuel + 1, st, nodeId =>
    match getPage st nodeId with
    | none => st
    | some node =>
      if nodeParentOf node = -1 then adjustRoot st nodeId
      else if nodeMin st node ≤ nodeSize node then st
      else
        let parentId := nodeParentOf node
        match getPage st parentId with
        | some (.internal p) =>
          let idx := (idxOf? nodeId (childIds p)).getD 0
          if 0 < idx then
            let sibId := (childIds p).getD (idx - 1) (-1)
            match getPage st sibId with
            | some sib =>
              if nodeMin st sib < nodeSize sib then
                redistribute st sibId nodeId parentId idx true
              else
                coalesceOrRedistribute fuel (coalesceStep st sibId nodeId parentId idx) parentId
            | none => st
          else if idx + 1 < 1 + p.entries.length then
            let sibId := (childIds p).getD (idx + 1) (-1)
            match getPage st sibId with
            | some sib =>
              if nodeMin st sib < nodeSize sib then
                redistribute st sibId nodeId parentId (idx + 1) false
              else
                coalesceOrRedistribute fuel (coalesceStep st nodeId sibId parentId (idx + 1)) parentId
            | none => st
          else st
        | _ => st

/-- `BPlusTree::Remove`: locate the leaf, delete the key if present, then
rebalance the leaf. -/
def BTree.removeKey (st : BTree) (fuel key : Nat) : BTree :=
  if st.rootId = -1 then st
  else
    match findLeafId st key fuel st.rootId with
    | none => st
    | some leafId =>
      match getPage st leafId with
      | some (.leaf lf) =>
        match removeKeyFromKvs lf.kvs key with
        | none => st
        | some kvs2 =>
          coalesceOrRedistribute fuel (setNode st leafId (.leaf { lf with kvs := kvs2 })) leafId
      | _ => st

/-- `FindLeafPage(key, leftMost = true)`: always descend into `ValueAt(0)`. -/
def leftmostLeafId (st : BTree) : Nat → Int → Option Int
  | 0, _ => none
  | fuel + 1, pid =>
    match getPage st pid with
    | some (.leaf _) => some pid
    | some (.internal nd) => leftmostLeafId st fuel nd.firstChild
    | some (.internalEmpty _) => none
    | none => none

/-- Keys collected by walking the leaf chain (`next_page_id_` links) from a
given leaf. -/
def chainKeys (st : BTree) : Nat → Int → List Nat
  | 0, _ => []
  | fuel + 1, pid =>
    if pid = -1 then []
    else
      match getPage st pid with
      | some (.leaf lf) => lf.kvs.map Prod.fst ++ chainKeys st fuel lf.next
      | _ => []

/-- The tree's keys in leaf-chain order, starting at the leftmost leaf. -/
def BTree.leafChain (st : BTree) (fuel : Nat) : List Nat :=
  match leftmostLeafId st fuel st.rootId with
  | some pid => chainKeys st fuel pid
  | none => []

/-- Tree height below a page: 1 for a leaf, following slot-0 children. -/
def heightFrom (st : BTree) : Nat → Int → Nat
  | 0, _ => 0
  | fuel + 1, pid =>
    match getPage st pid with
    | some (.leaf _) => 1
    | some (.internal nd) => 1 + heightFrom st fuel nd.firstChild
    | some (.internalEmpty _) => 0
    | none => 0

/-- Height of the tree (1 = the root is a leaf). -/
def BTree.height (st : BTree) (fuel : Nat) : Nat := heightFrom st fuel st.rootId

/-- Number of children of the internal page `pid` (0 for leaves or missing
pages). -/
def internalChildCount (st : BTree) (pid : Int) : Nat :=
  match getPage st pid with
  | some (.internal nd) => (childIds nd).length
  | _ => 0

/-- The separator keys of the root (empty when the root is a leaf). -/
def rootSepKeys (st : BTree) : List Nat :=
  match getPage st st.rootId with
  | some (.internal nd) => nd.entries.map Prod.fst
  | _ => []

/-- The keys stored in leaf page `pid`. -/
def leafKeysAt (st : BTree) (pid : Int) : List Nat :=
  match getPage st pid with
  | some (.leaf lf) => lf.kvs.map Prod.fst
  | _ => []

/-- Keys of the `i`-th child of the root, when that child is a leaf. -/
def rootChildKeys (st : BTree) (i : Nat) : List Nat :=
  match getPage st st.rootId with
  | some (.internal nd) => leafKeysAt st ((childIds nd).getD i (-1))
  | _ => []

/-! ## Concrete scenarios -/

/-- Scenario 4 of the spec: `leaf_max_size = 4`, `internal_max_size = 4`,
keys `1..5` inserted in order. -/
def c1Tree : BTree := (BTree.mkEmpty 4 4).insertMany 20 [1, 2, 3, 4, 5]

/-- Keys `1..13` into the same configuration: three leaf splits fill the
root (page 2, four leaf children, `size = max_size = 4`); no insert so
far has reached a full parent, so none throws.  The next insert, key
`14`, splits a leaf and reaches the full root. -/
def c2Tree : BTree := (BTree.mkEmpty 4 4).insertMany 20 (List.range' 1 13)

/-- Scenario 5 of the spec: scenario 4 followed by `remove 5` and
`remove 4`. -/
def c3Tree : BTree := (c1Tree.removeKey 20 5).removeKey 20 4

/-- Scenario 1 of the spec: `K = 2`, accesses `A,B,C,D,A,B,C` on frames
`0,1,2,3`, then all four frames marked evictable. -/
def c4Repl : Replacer :=
  (List.range 4).foldl (fun r f => r.setEvictable f true)
    (([0, 1, 2, 3, 0, 1, 2] : List Nat).foldl (fun r f => r.recordAccess f) (Replacer.mkInit 4 2))

/-- Scenario 3 of the spec, step by step: `pool_size = 3`, three pages
created and pinned. -/
def c5Full : BPM := ((((BPM.mkInit 3 2).newPage).2.newPage).2.newPage).2

/-- Bytes the caller writes into `p2`'s frame (frame 1, page id 1). -/
def c5Bytes : List Nat := [7, 8, 9]

/-- After writing `p2`'s bytes and unpinning it dirty. -/
def c5Unpinned : BPM := ((c5Full.writeData 1 c5Bytes).unpinPage 1 true).2

/-- The successful `new_page()` call after the unpin. -/
def c5New : Option (Int × Nat) × BPM := c5Unpinned.newPage

/-- The `fetch_page(p2)` call, issued once a frame is available again
(the new page, pinned by `new_page`, is unpinned clean first — with all
three frames pinned no frame could be produced for the fetch). -/
def c5Fetch : Option Nat × BPM := (((c5New.2).unpinPage 3 false).2).fetchPage 1

/-- Scenario 2 of the spec: `bucket_size = 2`, integer keys inserted in
order `0,1,2,3,4` (each key its own value). -/
def c6At (n : Nat) : EHT :=
  ((List.range n).foldl (fun t k => ehtInsert 10 t k k) (EHT.mkInit 2))

/-! ## Specification predicates and operation languages -/

/-- Loop invariant of the selection loop in `LRUKReplacer::Evict` after the
entries `l` have been visited: an empty candidate means no evictable entry
was seen; otherwise the candidate is an evictable visited entry whose
fields are derived from its record, an under-K candidate has the least
first timestamp among visited evictable under-K entries, and an
at-least-K candidate exists only when no visited evictable entry is
under-K and it maximises the k-distance with ties broken towards the
older first timestamp. -/
def CandOk (k now : Nat) (l : List (Nat × FrameRec)) : Option Cand → Prop
  | none => ∀ e ∈ l, e.2.evictable = false
  | some cd =>
      (∃ h : FrameRec, (cd.fid, h) ∈ l ∧ h.evictable = true ∧
         cd.isInf = isUnderK k h ∧ cd.earliest = front h ∧
         (cd.isInf = false → cd.dist = now - front h)) ∧
      (cd.isInf = true → ∀ e ∈ l, e.2.evictable = true → isUnderK k e.2 = true →
         cd.earliest ≤ front e.2) ∧
      (cd.isInf = false → ∀ e ∈ l, e.2.evictable = true →
         isUnderK k e.2 = false ∧
         (now - front e.2 < cd.dist ∨ (now - front e.2 = cd.dist ∧ cd.earliest ≤ front e.2)))

/-- The replacer's public mutators, for quantifying over call sequences. -/
inductive ROp where
  | acc (fid : Nat)
  | sete (fid : Nat) (b : Bool)
  | evi
  | rmv (fid : Nat)
deriving DecidableEq

/-- Apply one replacer call (an `Evict` returning `false` and the throwing
paths of `RecordAccess`/`SetEvictable`/`Remove` leave the state
unchanged). -/
def applyROp (r : Replacer) : ROp → Replacer
  | .acc fid => r.recordAccess fid
  | .sete fid b => r.setEvictable fid b
  | .evi => (r.evict).2
  | .rmv fid => r.removeFrame fid

/-- The buffer pool's public operations, for quantifying over call
sequences. -/
inductive BOp where
  | newp
  | fetch (pid : Int)
  | unpin (pid : Int) (d : Bool)
  | flush (pid : Int)
  | flushAll
  | del (pid : Int)
  | wr (fid : Nat) (bytes : List Nat)
deriving DecidableEq

/-- Apply one buffer pool call, discarding its return value. -/
def applyBOp (st : BPM) : BOp → BPM
  | .newp => (st.newPage).2
  | .fetch pid => (st.fetchPage pid).2
  | .unpin pid d => (st.unpinPage pid d).2
  | .flush pid => (st.flushPage pid).2
  | .flushAll => st.flushAll
  | .del pid => (st.deletePage pid).2
  | .wr fid bytes => st.writeData fid bytes

/-- The page ids returned by the successful `new_page` calls of a call
sequence, in order. -/
def collectNews : BPM → List BOp → List Int
  | _, [] => []
  | st, .newp :: rest =>
    match st.newPage with
    | (some pf, st2) => pf.1 :: collectNews st2 rest
    | (none, st2) => collectNews st2 rest
  | st, op :: rest => collectNews (applyBOp st op) rest

/-- `n` consecutive integers starting at `start`. -/
def rangeInt (start : Int) (n : Nat) : List Int :=
  (List.range n).map (fun i : Nat => start + (i : Int))

/-! ## Witness states -/

/-- A one-frame replacer tracking the evictable frame `0` with a single
access, for instantiating the universal eviction theorem. -/
def c4WitRepl : Replacer := ⟨1, 2, [(0, ⟨[1], true⟩)], 1, 1⟩

/-- A one-frame buffer pool holding page `0` pinned once, for instantiating
the universal unpin/fetch theorems. -/
def c7WitBPM : BPM := ((BPM.mkInit 1 2).newPage).2

/-- A five-page store around a full internal parent (page 10, children the
leaves 0,1,2,3) and a freshly split leaf 4, for instantiating the
universal aborted-internal-split theorem: the pair `(13, 4)` is about to
be inserted at `insert_index = 4` when the split begins and throws. -/
def c2WitTree : BTree :=
  ⟨[(10, .internal ⟨0, [(4, 1), (7, 2), (10, 3)], -1⟩),
    (0, .leaf ⟨[(1, 1), (2, 2), (3, 3)], 10, 1⟩),
    (1, .leaf ⟨[(4, 4), (5, 5), (6, 6)], 10, 2⟩),
    (2, .leaf ⟨[(7, 7), (8, 8), (9, 9)], 10, 3⟩),
    (3, .leaf ⟨[(10, 10), (11, 11), (12, 12)], 10, 4⟩),
    (4, .leaf ⟨[(13, 13), (14, 14)], 10, -1⟩)], 10, 11, 4, 4⟩

/-! ## Claim theorems: concrete scenarios -/

/-- C1, the claim as stated, refuted: inserting `1,2,3,4,5` with
`leaf_max_size = internal_max_size = 4` does NOT produce separator `3`
with leaves `{1,2}` and `{3,4,5}` — `InsertIntoLeaf` keeps
`split_index = (new_size + 1) / 2 = 3` entries in the original leaf, so
the separator is `4` and the leaves are `{1,2,3}` and `{4,5}`. -/
theorem c1_leaf_split_counterexample :
    ¬ (rootSepKeys c1Tree = [3] ∧ rootChildKeys c1Tree 0 = [1, 2] ∧
       rootChildKeys c1Tree 1 = [3, 4, 5]) := by
  decide

/-- C1 amended: with `leaf_max_size = internal_max_size = 4`, inserting
`1..5` yields an internal root with the single separator `4` and two
leaves `{1,2,3}` and `{4,5}`; the leaf chain yields `1,2,3,4,5`; and, per
the split rule, the original leaf keeps exactly
`⌈(max_size + 1) / 2⌉ = (4 + 2) / 2 = 3` of the 5 logical entries. -/
theorem c1_leaf_split_amended :
    rootSepKeys c1Tree = [4] ∧
    rootChildKeys c1Tree 0 = [1, 2, 3] ∧
    rootChildKeys c1Tree 1 = [4, 5] ∧
    internalChildCount c1Tree c1Tree.rootId = 2 ∧
    c1Tree.leafChain 20 = [1, 2, 3, 4, 5] ∧
    (rootChildKeys c1Tree 0).length = (c1Tree.leafMax + 1 + 1) / 2 := by
  decide

/-- C2, the claim as stated, refuted at a concrete input: after inserting
`1..13` (leaf and internal `max_size = 4`) the root (page 2) is a full
internal node with 4 leaf children; inserting `14` splits a leaf and
reaches the full parent.  The claim demands that the original node keep
`⌈(4 + 1) / 2⌉ = 3` children, that the separator be promoted upward and
that the moved children be reparented — instead the program truncates
the original node to `split_index = (4 + 1) / 2 = 2` children, leaves
the freshly allocated sibling (page 6) empty, and throws
`std::out_of_range` out of `Insert` (`SetValueAt(0,·)` on the size-0
sibling, b_plus_tree.cpp:713): nothing is promoted (the root id is
unchanged) and nothing is reparented. -/
theorem c2_internal_split_counterexample :
    (c2Tree.insertKVEx 20 14 14).2 = true ∧
    ¬ (internalChildCount (c2Tree.insertKVEx 20 14 14).1 2 = 3) ∧
    internalChildCount (c2Tree.insertKVEx 20 14 14).1 2 = 2 ∧
    (c2Tree.insertKVEx 20 14 14).1.rootId = 2 ∧
    getPage (c2Tree.insertKVEx 20 14 14).1 6 = some (.internalEmpty (-1)) := by
  decide

/-- C3: starting from the scenario-4 tree (`1..5`), `remove 5` then
`remove 4` leave the surviving leaf `{1,2,3}` (page 0) as the root (its
parent and next pointers cleared) with tree height 1; `root_page_id_` no
longer points at the old internal root (page 2), which `AdjustRoot`
collapsed away — though, every `DeletePage` the tree issues hitting
`DeletePgImp`'s pinned-page failure, that page stays resident in the
pool, unreachable from the root.  (`GetMinSize`/root detection are
modelled from the spec, `b_plus_tree_page.cpp` not being among the
sources.) -/
theorem c3_delete_coalesce :
    getPage c3Tree c3Tree.rootId = some (.leaf ⟨[(1, 1), (2, 2), (3, 3)], -1, -1⟩) ∧
    leafKeysAt c3Tree c3Tree.rootId = [1, 2, 3] ∧
    c3Tree.height 20 = 1 ∧
    c3Tree.rootId = 0 ∧
    getPage c3Tree 2 = some (.internal ⟨0, [], -1⟩) ∧
    ¬ c3Tree.rootId = 2 := by
  decide

/-- C5: with `pool_size = 3` and pages `p0,p1,p2` all pinned, `new_page()`
fails; after `unpin_page(p1, dirty := true)` (page id 1 in frame 1, the
middle page, holding bytes `[7,8,9]`), `new_page()` succeeds by evicting
exactly frame 1 and first writing its dirty bytes to disk; a subsequent
`fetch_page(1)` — issued once the newly created page has been unpinned,
since with every frame pinned no fetch can succeed — reads those same
bytes back from disk. -/
theorem c5_buffer_pool_roundtrip :
    (c5Full.newPage).1 = none ∧
    c5New.1 = some (3, 1) ∧
    diskRead (c5New.2).disk 1 = c5Bytes ∧
    c5Fetch.1 = some 1 ∧
    ((c5Fetch.2).frames.getD 1 frameDefault).pageId = 1 ∧
    ((c5Fetch.2).frames.getD 1 frameDefault).data = c5Bytes := by
  decide

/-- C6: with `bucket_size = 2`, inserting `0,1,2,3,4`: the global depth is
0 after `0,1`, rises to 1 during the insert of `2` and to 2 during the
insert of `4`; `GetNumBuckets()` returns 2 after inserting `2` (and still
2 after `3`) and 3 after inserting `4`. -/
theorem c6_extendible_hash_split :
    (c6At 2).globalDepth = 0 ∧
    (c6At 3).globalDepth = 1 ∧ ehtNumBuckets (c6At 3) = 2 ∧
    (c6At 4).globalDepth = 1 ∧ ehtNumBuckets (c6At 4) = 2 ∧
    (c6At 5).globalDepth = 2 ∧ ehtNumBuckets (c6At 5) = 3 := by
  decide

/-! ## Association-list lemmas -/

theorem forall_append_single {α : Type} {P : α → Prop} {l : List α} {x : α}
    (h1 : ∀ e ∈ l, P e) (h2 : P x) : ∀ e ∈ l ++ [x], P e := by
  intro e he
  rcases List.mem_append.mp he with h | h
  · exact h1 e h
  · rw [List.mem_singleton.mp h]
    exact h2

theorem lookupKey_eq_none_iff [DecidableEq κ] (l : List (κ × α)) (i : κ) :
    lookupKey l i = none ↔ i ∉ l.map Prod.fst := by
  induction l with
  | nil => simp [lookupKey]
  | cons e rest ih =>
    obtain ⟨j, v⟩ := e
    by_cases hij : i = j
    · subst hij
      simp [lookupKey]
    · simp [lookupKey, hij, ih]

theorem mem_of_lookupKey [DecidableEq κ] {l : List (κ × α)} {i : κ} {v : α}
    (h : lookupKey l i = some v) : (i, v) ∈ l := by
  induction l with
  | nil => simp [lookupKey] at h
  | cons e rest ih =>
    obtain ⟨j, w⟩ := e
    by_cases hij : i = j
    · subst hij
      simp [lookupKey] at h
      simp [h]
    · simp [lookupKey, hij] at h
      exact List.mem_cons_of_mem _ (ih h)

theorem lookupKey_of_mem [DecidableEq κ] {l : List (κ × α)} {i : κ} {v : α}
    (hnd : (l.map Prod.fst).Nodup) (h : (i, v) ∈ l) : lookupKey l i = some v := by
  induction l with
  | nil => simp at h
  | cons e rest ih =>
    obtain ⟨j, w⟩ := e
    simp only [List.map_cons, List.nodup_cons] at hnd
    rcases List.mem_cons.mp h with h1 | h1
    · rw [Prod.mk.injEq] at h1
      obtain ⟨h2, h3⟩ := h1
      subst h2
      subst h3
      simp [lookupKey]
    · by_cases hij : i = j
      · subst hij
        exact absurd (List.mem_map_of_mem Prod.fst h1) hnd.1
      · simpa [lookupKey, hij] using ih hnd.2 h1

theorem updateKey_of_not_mem [DecidableEq κ] {l : List (κ × α)} {i : κ} (f : α → α)
    (h : i ∉ l.map Prod.fst) : updateKey l i f = l := by
  induction l with
  | nil => rfl
  | cons e rest ih =>
    obtain ⟨j, w⟩ := e
    simp only [List.map_cons, List.mem_cons, not_or] at h
    simp [updateKey, Ne.symm h.1]
    simpa [updateKey] using ih h.2

theorem map_fst_updateKey [DecidableEq κ] (l : List (κ × α)) (i : κ) (f : α → α) :
    (updateKey l i f).map Prod.fst = l.map Prod.fst := by
  induction l with
  | nil => rfl
  | cons e rest ih =>
    by_cases hij : e.1 = i
    · simpa [updateKey, hij] using ih
    · simpa [updateKey, hij] using ih

theorem map_fst_eraseKey_sublist [DecidableEq κ] (l : List (κ × α)) (i : κ) :
    ((eraseKey l i).map Prod.fst).Sublist (l.map Prod.fst) := by
  induction l with
  | nil => simp [eraseKey]
  | cons e rest ih =>
    obtain ⟨j, w⟩ := e
    by_cases hij : i = j
    · simp only [eraseKey, if_pos hij]
      exact ih.trans (List.sublist_cons_self _ _)
    · simp only [eraseKey, if_neg hij, List.map_cons]
      exact ih.cons₂ _

theorem eraseKey_of_not_mem [DecidableEq κ] {l : List (κ × α)} {i : κ}
    (h : i ∉ l.map Prod.fst) : eraseKey l i = l := by
  induction l with
  | nil => rfl
  | cons e rest ih =>
    obtain ⟨j, w⟩ := e
    simp only [List.map_cons, List.mem_cons, not_or] at h
    simp only [eraseKey, if_neg h.1]
    rw [ih h.2]

theorem countEvictable_cons (e : Nat × FrameRec) (l : List (Nat × FrameRec)) :
    countEvictable (e :: l) = (if e.2.evictable then 1 else 0) + countEvictable l := by
  by_cases h : e.2.evictable
  · simp [countEvictable, h]
    omega
  · simp [countEvictable, h]

theorem lookupKey_cons_eq [DecidableEq κ] (i : κ) (w : α) (rest : List (κ × α)) :
    lookupKey ((i, w) :: rest) i = some w := by
  simp [lookupKey]

theorem lookupKey_cons_ne [DecidableEq κ] {i j : κ} (hij : i ≠ j) (w : α)
    (rest : List (κ × α)) : lookupKey ((j, w) :: rest) i = lookupKey rest i := by
  simp [lookupKey, hij]

theorem updateKey_cons_eq [DecidableEq κ] (i : κ) (w : α) (rest : List (κ × α)) (f : α → α) :
    updateKey ((i, w) :: rest) i f = (i, f w) :: updateKey rest i f := by
  simp [updateKey]

theorem updateKey_cons_ne [DecidableEq κ] {i j : κ} (hij : i ≠ j) (w : α)
    (rest : List (κ × α)) (f : α → α) :
    updateKey ((j, w) :: rest) i f = (j, w) :: updateKey rest i f := by
  simp [updateKey, Ne.symm hij]

theorem eraseKey_cons_eq [DecidableEq κ] (i : κ) (w : α) (rest : List (κ × α)) :
    eraseKey ((i, w) :: rest) i = eraseKey rest i := by
  simp [eraseKey]

theorem eraseKey_cons_ne [DecidableEq κ] {i j : κ} (hij : i ≠ j) (w : α)
    (rest : List (κ × α)) : eraseKey ((j, w) :: rest) i = (j, w) :: eraseKey rest i := by
  simp [eraseKey, hij]

theorem countEvictable_updateKey {l : List (Nat × FrameRec)} {i : Nat} {h : FrameRec}
    (f : FrameRec → FrameRec) (hnd : (l.map Prod.fst).Nodup) (hl : lookupKey l i = some h) :
    countEvictable (updateKey l i f) + (if h.evictable then 1 else 0) =
      countEvictable l + (if (f h).evictable then 1 else 0) := by
  induction l with
  | nil => simp [lookupKey] at hl
  | cons e rest ih =>
    obtain ⟨j, w⟩ := e
    simp only [List.map_cons, List.nodup_cons] at hnd
    by_cases hij : i = j
    · subst hij
      have hl2 : w = h := by simpa [lookupKey] using hl
      subst hl2
      rw [updateKey_cons_eq, updateKey_of_not_mem f hnd.1,
        countEvictable_cons, countEvictable_cons]
      dsimp only
      omega
    · rw [lookupKey_cons_ne hij] at hl
      have := ih hnd.2 hl
      rw [updateKey_cons_ne hij, countEvictable_cons, countEvictable_cons]
      omega

theorem countEvictable_eraseKey {l : List (Nat × FrameRec)} {i : Nat} {h : FrameRec}
    (hnd : (l.map Prod.fst).Nodup) (hl : lookupKey l i = some h) :
    countEvictable (eraseKey l i) + (if h.evictable then 1 else 0) = countEvictable l := by
  induction l with
  | nil => simp [lookupKey] at hl
  | cons e rest ih =>
    obtain ⟨j, w⟩ := e
    simp only [List.map_cons, List.nodup_cons] at hnd
    by_cases hij : i = j
    · subst hij
      have hl2 : w = h := by simpa [lookupKey] using hl
      subst hl2
      rw [eraseKey_cons_eq, eraseKey_of_not_mem hnd.1, countEvictable_cons]
      dsimp only
      omega
    · rw [lookupKey_cons_ne hij] at hl
      have := ih hnd.2 hl
      rw [eraseKey_cons_ne hij, countEvictable_cons, countEvictable_cons]
      omega

theorem count_pos_of_mem {l : List (Nat × FrameRec)} {e : Nat × FrameRec}
    (hm : e ∈ l) (he : e.2.evictable = true) : 0 < countEvictable l := by
  have : e ∈ l.filter (fun e => e.2.evictable) := List.mem_filter.mpr ⟨hm, by simp [he]⟩
  exact List.length_pos.mpr (List.ne_nil_of_mem this)

theorem exists_evictable_of_count_pos {l : List (Nat × FrameRec)}
    (h : 0 < countEvictable l) : ∃ e ∈ l, e.2.evictable = true := by
  unfold countEvictable at h
  obtain ⟨e, he⟩ := List.exists_mem_of_length_pos h
  have := List.mem_filter.mp he
  exact ⟨e, this.1, by simpa using this.2⟩

theorem count_eq_zero_of_none {l : List (Nat × FrameRec)}
    (h : ∀ e ∈ l, e.2.evictable = false) : countEvictable l = 0 := by
  unfold countEvictable
  rw [List.filter_eq_nil_iff.mpr (fun e he => by simp [h e he])]
  rfl

/-! ## Eviction-loop specification -/

theorem isUnderK_true_iff (k : Nat) (h : FrameRec) :
    isUnderK k h = true ↔ h.timestamps.length < k := by
  simp [isUnderK]

theorem isUnderK_false_iff (k : Nat) (h : FrameRec) :
    isUnderK k h = false ↔ ¬ h.timestamps.length < k := by
  simp [isUnderK]

theorem candOk_step (k now : Nat) (l : List (Nat × FrameRec)) (acc : Option Cand)
    (x : Nat × FrameRec) (H : CandOk k now l acc) :
    CandOk k now (l ++ [x]) (evictStep k now acc x) := by
  obtain ⟨fid, h⟩ := x
  by_cases hev : h.evictable = false
  · have hstep : evictStep k now acc (fid, h) = acc := by
      simp [evictStep, hev]
    rw [hstep]
    cases acc with
    | none =>
      exact forall_append_single H hev
    | some cd =>
      obtain ⟨⟨hh, hmem, hhev, hinf, hearl, hdist⟩, H2, H3⟩ := H
      refine ⟨⟨hh, List.mem_append_left _ hmem, hhev, hinf, hearl, hdist⟩, ?_, ?_⟩
      · intro hi
        refine forall_append_single (H2 hi) ?_
        intro hee
        simp [hev] at hee
      · intro hi
        refine forall_append_single (H3 hi) ?_
        intro hee
        simp [hev] at hee
  · rw [Bool.not_eq_false] at hev
    by_cases hk : h.timestamps.length < k
    · -- the new frame is under-K
      have hu : isUnderK k h = true := (isUnderK_true_iff k h).mpr hk
      cases acc with
      | none =>
        have hstep : evictStep k now none (fid, h) = some ⟨fid, true, 0, front h⟩ := by
          simp [evictStep, hev, hk]
        rw [hstep]
        refine ⟨⟨h, List.mem_append_right _ (by simp), hev, hu.symm, rfl, by simp⟩, ?_, by simp⟩
        intro _
        refine forall_append_single ?_ ?_
        · intro e he hee
          rw [H e he] at hee
          simp at hee
        · intro _ _
          exact Nat.le_refl _
      | some cd =>
        by_cases hci : cd.isInf = false
        · have hstep : evictStep k now (some cd) (fid, h) = some ⟨fid, true, 0, front h⟩ := by
            simp [evictStep, hev, hk, hci]
          rw [hstep]
          obtain ⟨_, _, H3⟩ := H
          refine ⟨⟨h, List.mem_append_right _ (by simp), hev, hu.symm, rfl, by simp⟩, ?_, by simp⟩
          intro _
          refine forall_append_single ?_ ?_
          · intro e he hee hue
            rw [(H3 hci e he hee).1] at hue
            simp at hue
          · intro _ _
            exact Nat.le_refl _
        · rw [Bool.not_eq_false] at hci
          obtain ⟨⟨hh, hmem, hhev, hinf, hearl, hdist⟩, H2, H3⟩ := H
          by_cases hlt : front h < cd.earliest
          · have hstep : evictStep k now (some cd) (fid, h) = some ⟨fid, true, 0, front h⟩ := by
              simp [evictStep, hev, hk, hci, hlt]
            rw [hstep]
            refine ⟨⟨h, List.mem_append_right _ (by simp), hev, hu.symm, rfl, by simp⟩, ?_, by simp⟩
            intro _
            refine forall_append_single ?_ ?_
            · intro e he hee hue
              exact Nat.le_trans (Nat.le_of_lt hlt) (H2 hci e he hee hue)
            · intro _ _
              exact Nat.le_refl _
          · have hstep : evictStep k now (some cd) (fid, h) = some cd := by
              simp [evictStep, hev, hk, hci, hlt]
            rw [hstep]
            refine ⟨⟨hh, List.mem_append_left _ hmem, hhev, hinf, hearl, hdist⟩, ?_, ?_⟩
            · intro _
              refine forall_append_single (H2 hci) ?_
              intro _ _
              dsimp only
              omega
            · intro hcf
              rw [hcf] at hci
              simp at hci
    · -- the new frame has at least K accesses
      have hu : isUnderK k h = false := (isUnderK_false_iff k h).mpr hk
      cases acc with
      | none =>
        have hstep : evictStep k now none (fid, h) =
            some ⟨fid, false, now - front h, front h⟩ := by
          simp [evictStep, hev, hk]
        rw [hstep]
        refine ⟨⟨h, List.mem_append_right _ (by simp), hev, hu.symm, rfl, by simp⟩,
          by simp, ?_⟩
        intro _
        refine forall_append_single ?_ ?_
        · intro e he hee
          rw [H e he] at hee
          simp at hee
        · intro _
          exact ⟨hu, Or.inr ⟨rfl, Nat.le_refl _⟩⟩
      | some cd =>
        by_cases hci : cd.isInf = true
        · have hstep : evictStep k now (some cd) (fid, h) = some cd := by
            simp [evictStep, hev, hk, hci]
          rw [hstep]
          obtain ⟨⟨hh, hmem, hhev, hinf, hearl, hdist⟩, H2, H3⟩ := H
          refine ⟨⟨hh, List.mem_append_left _ hmem, hhev, hinf, hearl, hdist⟩, ?_, ?_⟩
          · intro _
            refine forall_append_single (H2 hci) ?_
            intro _ hue
            rw [hu] at hue
            simp at hue
          · intro hcf
            rw [hcf] at hci
            simp at hci
        · rw [Bool.not_eq_true] at hci
          obtain ⟨⟨hh, hmem, hhev, hinf, hearl, hdist⟩, H2, H3⟩ := H
          by_cases hgt : cd.dist < now - front h
          · have hstep : evictStep k now (some cd) (fid, h) =
                some ⟨fid, false, now - front h, front h⟩ := by
              simp [evictStep, hev, hk, hci, hgt]
            rw [hstep]
            refine ⟨⟨h, List.mem_append_right _ (by simp), hev, hu.symm, rfl, by simp⟩,
              by simp, ?_⟩
            intro _
            refine forall_append_single ?_ ?_
            · intro e he hee
              obtain ⟨he1, he2⟩ := H3 hci e he hee
              refine ⟨he1, Or.inl ?_⟩
              dsimp only
              rcases he2 with he2 | ⟨he2, _⟩ <;> omega
            · intro _
              exact ⟨hu, Or.inr ⟨rfl, Nat.le_refl _⟩⟩
          · by_cases htie : now - front h = cd.dist ∧ front h < cd.earliest
            · have hstep : evictStep k now (some cd) (fid, h) =
                  some ⟨fid, false, cd.dist, front h⟩ := by
                simp [evictStep, hev, hk, hci, hgt, htie]
              rw [hstep]
              refine ⟨⟨h, List.mem_append_right _ (by simp), hev, hu.symm, rfl,
                fun _ => htie.1.symm⟩, by simp, ?_⟩
              intro _
              refine forall_append_single ?_ ?_
              · intro e he hee
                obtain ⟨he1, he2⟩ := H3 hci e he hee
                refine ⟨he1, ?_⟩
                rcases he2 with he2 | ⟨he2, he3⟩
                · exact Or.inl he2
                · refine Or.inr ⟨he2, ?_⟩
                  dsimp only
                  have hx := htie.2
                  omega
              · intro _
                exact ⟨hu, Or.inr ⟨htie.1, Nat.le_refl _⟩⟩
            · have hstep : evictStep k now (some cd) (fid, h) = some cd := by
                simp only [evictStep, hev, hk]
                simp [hci, hgt, htie]
              rw [hstep]
              refine ⟨⟨hh, List.mem_append_left _ hmem, hhev, hinf, hearl, hdist⟩, ?_, ?_⟩
              · intro hct
                rw [hct] at hci
                simp at hci
              · intro _
                refine forall_append_single (H3 hci) ?_
                intro _
                refine ⟨hu, ?_⟩
                dsimp only
                by_cases heq : now - front h = cd.dist
                · refine Or.inr ⟨heq, ?_⟩
                  have hne : ¬ front h < cd.earliest := fun hc => htie ⟨heq, hc⟩
                  omega
                · omega

theorem candOk_foldl (k now : Nat) (rest : List (Nat × FrameRec)) :
    ∀ (l : List (Nat × FrameRec)) (acc : Option Cand), CandOk k now l acc →
      CandOk k now (l ++ rest) (rest.foldl (evictStep k now) acc) := by
  induction rest with
  | nil =>
    intro l acc H
    simpa using H
  | cons x rest ih =>
    intro l acc H
    have h1 := candOk_step k now l acc x H
    have h2 := ih (l ++ [x]) (evictStep k now acc x) h1
    simpa using h2

theorem evictChoice_ok (r : Replacer) : CandOk r.k r.now r.frames (r.evictChoice) := by
  have h0 : CandOk r.k r.now [] none := by
    intro e he
    simp at he
  have := candOk_foldl r.k r.now r.frames [] none h0
  simpa [Replacer.evictChoice] using this

theorem evictChoice_mem {r : Replacer} {cd : Cand} (h : r.evictChoice = some cd) :
    ∃ hh : FrameRec, (cd.fid, hh) ∈ r.frames ∧ hh.evictable = true := by
  have H := evictChoice_ok r
  rw [h] at H
  obtain ⟨⟨hh, hmem, hhev, _⟩, _, _⟩ := H
  exact ⟨hh, hmem, hhev⟩

theorem evictChoice_none_count {r : Replacer} (h : r.evictChoice = none) :
    countEvictable r.frames = 0 := by
  have H := evictChoice_ok r
  rw [h] at H
  exact count_eq_zero_of_none H

theorem evictChoice_isSome {r : Replacer} (h : 0 < countEvictable r.frames) :
    ∃ cd, r.evictChoice = some cd := by
  cases hc : r.evictChoice with
  | none =>
    rw [evictChoice_none_count hc] at h
    exact absurd h (by simp)
  | some cd => exact ⟨cd, rfl⟩

theorem replWF_recordAccess (r : Replacer) (fid : Nat) (H : ReplWF r) :
    ReplWF (r.recordAccess fid) := by
  obtain ⟨hnd, hcs⟩ := H
  by_cases hb : r.numFrames ≤ fid
  · have heq : r.recordAccess fid = r := by
      simp [Replacer.recordAccess, hb]
    rw [heq]
    exact ⟨hnd, hcs⟩
  · cases hl : lookupKey r.frames fid with
    | none =>
      have heq : r.recordAccess fid =
          { r with
            now := r.now + 1,
            frames := (fid, ⟨pushTs [] r.k (r.now + 1), false⟩) :: r.frames } := by
        simp [Replacer.recordAccess, hb, hl]
      rw [heq]
      refine ⟨?_, ?_⟩
      · exact List.nodup_cons.mpr ⟨(lookupKey_eq_none_iff _ _).mp hl, hnd⟩
      · dsimp only
        rw [countEvictable_cons]
        simpa using hcs
    | some h =>
      have heq : r.recordAccess fid =
          { r with
            now := r.now + 1,
            frames := updateKey r.frames fid
              (fun h => { h with timestamps := pushTs h.timestamps r.k (r.now + 1) }) } := by
        simp [Replacer.recordAccess, hb, hl]
      rw [heq]
      refine ⟨?_, ?_⟩
      · dsimp only
        rw [map_fst_updateKey]
        exact hnd
      · have hcount := countEvictable_updateKey
          (f := fun h => { h with timestamps := pushTs h.timestamps r.k (r.now + 1) }) hnd hl
        dsimp only at hcount ⊢
        omega

theorem replWF_setEvictable (r : Replacer) (fid : Nat) (b : Bool) (H : ReplWF r) :
    ReplWF (r.setEvictable fid b) := by
  obtain ⟨hnd, hcs⟩ := H
  by_cases hb : r.numFrames ≤ fid
  · have heq : r.setEvictable fid b = r := by
      simp [Replacer.setEvictable, hb]
    rw [heq]
    exact ⟨hnd, hcs⟩
  · cases hl : lookupKey r.frames fid with
    | none =>
      have heq : r.setEvictable fid b = r := by
        simp [Replacer.setEvictable, hb, hl]
      rw [heq]
      exact ⟨hnd, hcs⟩
    | some h =>
      by_cases hsame : h.evictable = b
      · have heq : r.setEvictable fid b = r := by
          simp [Replacer.setEvictable, hb, hl, hsame]
        rw [heq]
        exact ⟨hnd, hcs⟩
      · have heq : r.setEvictable fid b =
            { r with
              frames := updateKey r.frames fid (fun h => { h with evictable := b }),
              currSize := if b then r.currSize + 1 else r.currSize - 1 } := by
          simp [Replacer.setEvictable, hb, hl, hsame]
        rw [heq]
        have hcount := countEvictable_updateKey
          (f := fun h => { h with evictable := b }) hnd hl
        have hpos : h.evictable = true → 0 < countEvictable r.frames :=
          fun he => count_pos_of_mem (mem_of_lookupKey hl) he
        refine ⟨?_, ?_⟩
        · dsimp only
          rw [map_fst_updateKey]
          exact hnd
        · dsimp only at hcount ⊢
          rw [hcs]
          cases b with
          | true =>
            have hh : h.evictable = false := by
              revert hsame
              cases h.evictable <;> simp
            rw [hh] at hcount
            simp at hcount ⊢
            omega
          | false =>
            have hh : h.evictable = true := by
              revert hsame
              cases h.evictable <;> simp
            have hpos2 := hpos hh
            rw [hh] at hcount
            simp at hcount ⊢
            omega

theorem replWF_removeFrame (r : Replacer) (fid : Nat) (H : ReplWF r) :
    ReplWF (r.removeFrame fid) := by
  obtain ⟨hnd, hcs⟩ := H
  by_cases hb : r.numFrames ≤ fid
  · have heq : r.removeFrame fid = r := by
      simp [Replacer.removeFrame, hb]
    rw [heq]
    exact ⟨hnd, hcs⟩
  · cases hl : lookupKey r.frames fid with
    | none =>
      have heq : r.removeFrame fid = r := by
        simp [Replacer.removeFrame, hb, hl]
      rw [heq]
      exact ⟨hnd, hcs⟩
    | some h =>
      by_cases hhe : h.evictable = true
      · have heq : r.removeFrame fid =
            { r with frames := eraseKey r.frames fid, currSize := r.currSize - 1 } := by
          simp [Replacer.removeFrame, hb, hl, hhe]
        rw [heq]
        have hcount := countEvictable_eraseKey hnd hl
        refine ⟨?_, ?_⟩
        · exact hnd.sublist (map_fst_eraseKey_sublist _ _)
        · dsimp only at hcount ⊢
          rw [hhe] at hcount
          simp at hcount
          omega
      · have hhe2 : h.evictable = false := by
          revert hhe
          cases h.evictable <;> simp
        have heq : r.removeFrame fid = r := by
          simp [Replacer.removeFrame, hb, hl, hhe2]
        rw [heq]
        exact ⟨hnd, hcs⟩

theorem replWF_evict (r : Replacer) (H : ReplWF r) : ReplWF ((r.evict).2) := by
  obtain ⟨hnd, hcs⟩ := H
  by_cases hz : r.currSize = 0
  · have heq : (r.evict).2 = r := by
      simp [Replacer.evict, hz]
    rw [heq]
    exact ⟨hnd, hcs⟩
  · cases hc : r.evictChoice with
    | none =>
      have heq : (r.evict).2 = r := by
        simp [Replacer.evict, hz, hc]
      rw [heq]
      exact ⟨hnd, hcs⟩
    | some cd =>
      have heq : (r.evict).2 =
          { r with frames := eraseKey r.frames cd.fid, currSize := r.currSize - 1 } := by
        simp [Replacer.evict, hz, hc]
      rw [heq]
      obtain ⟨hh, hmem, hhev⟩ := evictChoice_mem hc
      have hl : lookupKey r.frames cd.fid = some hh := lookupKey_of_mem hnd hmem
      have hcount := countEvictable_eraseKey hnd hl
      have hpos : 0 < countEvictable r.frames := count_pos_of_mem hmem hhev
      refine ⟨?_, ?_⟩
      · exact hnd.sublist (map_fst_eraseKey_sublist _ _)
      · dsimp only at hcount ⊢
        rw [hhev] at hcount
        simp at hcount
        omega

theorem replWF_applyROp (r : Replacer) (op : ROp) (H : ReplWF r) :
    ReplWF (applyROp r op) := by
  cases op with
  | acc fid => exact replWF_recordAccess r fid H
  | sete fid b => exact replWF_setEvictable r fid b H
  | evi => exact replWF_evict r H
  | rmv fid => exact replWF_removeFrame r fid H

theorem replWF_foldl (ops : List ROp) :
    ∀ r : Replacer, ReplWF r → ReplWF (ops.foldl applyROp r) := by
  induction ops with
  | nil =>
    intro r H
    exact H
  | cons op rest ih =>
    intro r H
    exact ih _ (replWF_applyROp r op H)

theorem evict_none_iff (r : Replacer) (H : ReplWF r) :
    (r.evict).1 = none ↔ countEvictable r.frames = 0 := by
  obtain ⟨hnd, hcs⟩ := H
  constructor
  · intro h
    by_cases hz : r.currSize = 0
    · omega
    · cases hc : r.evictChoice with
      | none => exact evictChoice_none_count hc
      | some cd =>
        rw [show (r.evict).1 = some cd.fid by simp [Replacer.evict, hz, hc]] at h
        cases h
  · intro h
    have hz : r.currSize = 0 := by omega
    simp [Replacer.evict, hz]

/-- C8: after every sequence of `RecordAccess`, `SetEvictable`, `Evict` and
`Remove` calls starting from a fresh replacer, `Size()` equals the number
of currently tracked frames whose evictable flag is true (a newly tracked
frame starts non-evictable and does not count), and `Evict` returns no
frame exactly when that number is zero. -/
theorem c8_replacer_size_invariant (n k : Nat) (ops : List ROp) :
    (ops.foldl applyROp (Replacer.mkInit n k)).size =
      countEvictable (ops.foldl applyROp (Replacer.mkInit n k)).frames ∧
    (((ops.foldl applyROp (Replacer.mkInit n k)).evict).1 = none ↔
      countEvictable (ops.foldl applyROp (Replacer.mkInit n k)).frames = 0) := by
  have hwf : ReplWF (ops.foldl applyROp (Replacer.mkInit n k)) :=
    replWF_foldl ops _ ⟨by simp [Replacer.mkInit], by simp [Replacer.mkInit, countEvictable]⟩
  exact ⟨hwf.2, evict_none_iff _ hwf⟩

/-- C4: on any well-formed replacer state with at least one evictable
frame, `Evict` returns a tracked evictable frame and erases its entire
history; if some evictable frame is under-K the evicted frame is an
under-K frame with the least first recorded timestamp, and otherwise the
evicted frame maximises the k-distance `now - timestamps.front()` over
the evictable frames, ties broken towards the older first timestamp.
Concretely, with `K = 2`, accesses `A,B,C,D,A,B,C` and all four frames
evictable, the first `evict()` returns `D` and the second returns `A`. -/
theorem c4_lruk_evict :
    (∀ r : Replacer, ReplWF r → 0 < countEvictable r.frames →
      ∃ fid h, (fid, h) ∈ r.frames ∧ h.evictable = true ∧
        (r.evict).1 = some fid ∧
        (r.evict).2.frames = eraseKey r.frames fid ∧
        ((∃ e ∈ r.frames, e.2.evictable = true ∧ isUnderK r.k e.2 = true) →
          isUnderK r.k h = true ∧
          ∀ e ∈ r.frames, e.2.evictable = true → isUnderK r.k e.2 = true →
            front h ≤ front e.2) ∧
        ((∀ e ∈ r.frames, e.2.evictable = true → isUnderK r.k e.2 = false) →
          ∀ e ∈ r.frames, e.2.evictable = true →
            kDist r.now e.2 < kDist r.now h ∨
              (kDist r.now e.2 = kDist r.now h ∧ front h ≤ front e.2))) ∧
    (c4Repl.evict).1 = some 3 ∧ ((c4Repl.evict).2.evict).1 = some 0 := by
  refine ⟨?_, by decide, by decide⟩
  intro r hwf hpos
  obtain ⟨hnd, hcs⟩ := hwf
  have hz : ¬ r.currSize = 0 := by omega
  obtain ⟨cd, hc⟩ := evictChoice_isSome hpos
  have H := evictChoice_ok r
  rw [hc] at H
  obtain ⟨⟨hh, hmem, hhev, hinf, hearl, hdist⟩, H2, H3⟩ := H
  refine ⟨cd.fid, hh, hmem, hhev, ?_, ?_, ?_, ?_⟩
  · simp [Replacer.evict, hz, hc]
  · simp [Replacer.evict, hz, hc]
  · rintro ⟨e, hemem, heev, heu⟩
    have hcdinf : cd.isInf = true := by
      by_cases hq : cd.isInf = true
      · exact hq
      · rw [Bool.not_eq_true] at hq
        have hfalse := (H3 hq e hemem heev).1
        rw [hfalse] at heu
        cases heu
    have hhu : isUnderK r.k hh = true := by
      rw [← hinf]
      exact hcdinf
    refine ⟨hhu, ?_⟩
    intro e2 he2 hev2 hu2
    have hle := H2 hcdinf e2 he2 hev2 hu2
    rw [hearl] at hle
    exact hle
  · intro hall
    have hcdinf : cd.isInf = false := by
      rw [hinf]
      exact hall (cd.fid, hh) hmem hhev
    intro e2 he2 hev2
    obtain ⟨_, hd⟩ := H3 hcdinf e2 he2 hev2
    have hdd : cd.dist = r.now - front hh := hdist hcdinf
    rw [hdd, hearl] at hd
    unfold kDist
    exact hd

/-- Witness for the universal part of the eviction theorem, at the
one-frame replacer `c4WitRepl`. -/
theorem c4_lruk_evict_witness : (c4WitRepl.evict).1.isSome = true := by
  obtain ⟨fid, h, _, _, hev, _⟩ := c4_lruk_evict.1 c4WitRepl (by decide) (by decide)
  rw [hev]
  rfl

/-! ## Buffer pool lemmas and theorems -/

theorem get?_set_ne {α : Type} (l : List α) (i j : Nat) (h : j ≠ i) (a : α) :
    (l.set i a).get? j = l.get? j := by
  simp [List.get?_eq_getElem?, List.getElem?_set_ne (Ne.symm h)]

theorem getD_set_self {α : Type} (l : List α) (i : Nat) (a dflt : α) (h : i < l.length) :
    (l.set i a).getD i dflt = a := by
  simp [List.getD_eq_getElem?_getD, List.getElem?_set_eq_of_lt a h]

theorem getD_set_ne {α : Type} (l : List α) (i j : Nat) (h : j ≠ i) (a dflt : α) :
    (l.set i a).getD j dflt = l.getD j dflt := by
  simp [List.getD_eq_getElem?_getD, List.getElem?_set_ne (Ne.symm h)]

/-- C7: `unpin_page(page_id, is_dirty)` returns `false` with the whole
buffer pool state unchanged exactly when the page is not resident or its
pin count is 0; otherwise it returns `true`, decrements the pin count,
ORs `is_dirty` into the frame's dirty flag, marks the frame evictable
exactly when the pin count reaches zero, and touches nothing else.
The final conjunct states that `unpin_page(p, false)` leaves the dirty
flag exactly as it was, so performed after `unpin_page(p, true)` it does
not clear the dirty bit. -/
theorem c7_unpin_semantics :
    (∀ (st : BPM) (pid : Int) (d : Bool),
      (lookupKey st.pageTable pid = none → st.unpinPage pid d = (false, st)) ∧
      (∀ fid, lookupKey st.pageTable pid = some fid →
        (st.frames.getD fid frameDefault).pinCount = 0 →
        st.unpinPage pid d = (false, st)) ∧
      (∀ fid, lookupKey st.pageTable pid = some fid →
        (st.frames.getD fid frameDefault).pinCount ≠ 0 →
        (st.unpinPage pid d).1 = true ∧
        (st.unpinPage pid d).2.frames = setFrame st.frames fid
          { st.frames.getD fid frameDefault with
            pinCount := (st.frames.getD fid frameDefault).pinCount - 1,
            isDirty := (st.frames.getD fid frameDefault).isDirty || d } ∧
        (st.unpinPage pid d).2.repl =
          (if (st.frames.getD fid frameDefault).pinCount - 1 = 0
           then st.repl.setEvictable fid true else st.repl) ∧
        (st.unpinPage pid d).2.pageTable = st.pageTable ∧
        (st.unpinPage pid d).2.freeList = st.freeList ∧
        (st.unpinPage pid d).2.disk = st.disk ∧
        (st.unpinPage pid d).2.nextPageId = st.nextPageId)) ∧
    (∀ (st : BPM) (pid : Int) (fid : Nat), lookupKey st.pageTable pid = some fid →
      fid < st.frames.length →
      (((st.unpinPage pid false).2).frames.getD fid frameDefault).isDirty =
        (st.frames.getD fid frameDefault).isDirty) := by
  have key : ∀ (st : BPM) (pid : Int) (d : Bool) (fid : Nat),
      lookupKey st.pageTable pid = some fid →
      (st.frames.getD fid frameDefault).pinCount ≠ 0 →
      st.unpinPage pid d = (true, { st with
        frames := setFrame st.frames fid
          { st.frames.getD fid frameDefault with
            pinCount := (st.frames.getD fid frameDefault).pinCount - 1,
            isDirty := (st.frames.getD fid frameDefault).isDirty || d },
        repl := if (st.frames.getD fid frameDefault).pinCount - 1 = 0
                then st.repl.setEvictable fid true else st.repl }) := by
    intro st pid d fid hl hne
    simp only [BPM.unpinPage, hl]
    rw [if_neg hne]
    by_cases hz : (st.frames.getD fid frameDefault).pinCount - 1 = 0
    · rw [if_pos hz, if_pos hz]
    · rw [if_neg hz, if_neg hz]
  constructor
  · intro st pid d
    refine ⟨?_, ?_, ?_⟩
    · intro h
      simp only [BPM.unpinPage, h]
    · intro fid hl h0
      simp only [BPM.unpinPage, hl]
      rw [if_pos h0]
    · intro fid hl hne
      rw [key st pid d fid hl hne]
      exact ⟨rfl, rfl, rfl, rfl, rfl, rfl, rfl⟩
  · intro st pid fid hl hlen
    by_cases h0 : (st.frames.getD fid frameDefault).pinCount = 0
    · have : st.unpinPage pid false = (false, st) := by
        simp only [BPM.unpinPage, hl]
        rw [if_pos h0]
      rw [this]
    · rw [key st pid false fid hl h0]
      dsimp only
      simp only [setFrame]
      rw [getD_set_self _ _ _ _ hlen]
      simp

/-- Witness for the unpin theorem at the one-page pool `c7WitBPM`
(page 0 resident in frame 0 with pin count 1). -/
theorem c7_unpin_semantics_witness :
    (c7WitBPM.unpinPage 0 false).1 = true ∧
    ((c7WitBPM.unpinPage 0 false).2.frames.getD 0 frameDefault).isDirty =
      (c7WitBPM.frames.getD 0 frameDefault).isDirty :=
  ⟨((c7_unpin_semantics.1 c7WitBPM 0 false).2.2 0 (by decide) (by decide)).1,
   c7_unpin_semantics.2 c7WitBPM 0 0 (by decide) (by decide)⟩

/-- C9: fetching an already-resident page increments only that frame's pin
count and records its access in the replacer (marking it non-evictable);
the frame's data, dirty flag and page id, every other frame, the page
table, the free list, the allocation counter and the disk state are all
untouched — the resident branch of `FetchPgImp` performs no disk I/O. -/
theorem c9_fetch_resident_effect (st : BPM) (pid : Int) (fid : Nat)
    (hl : lookupKey st.pageTable pid = some fid) (hlen : fid < st.frames.length) :
    (st.fetchPage pid).1 = some fid ∧
    (st.fetchPage pid).2.frames = setFrame st.frames fid
      { st.frames.getD fid frameDefault with
        pinCount := (st.frames.getD fid frameDefault).pinCount + 1 } ∧
    ((st.fetchPage pid).2.frames.getD fid frameDefault).data =
      (st.frames.getD fid frameDefault).data ∧
    ((st.fetchPage pid).2.frames.getD fid frameDefault).isDirty =
      (st.frames.getD fid frameDefault).isDirty ∧
    ((st.fetchPage pid).2.frames.getD fid frameDefault).pageId =
      (st.frames.getD fid frameDefault).pageId ∧
    ((st.fetchPage pid).2.frames.getD fid frameDefault).pinCount =
      (st.frames.getD fid frameDefault).pinCount + 1 ∧
    (∀ j, j ≠ fid → (st.fetchPage pid).2.frames.get? j = st.frames.get? j) ∧
    (st.fetchPage pid).2.repl = (st.repl.recordAccess fid).setEvictable fid false ∧
    (st.fetchPage pid).2.pageTable = st.pageTable ∧
    (st.fetchPage pid).2.freeList = st.freeList ∧
    (st.fetchPage pid).2.disk = st.disk ∧
    (st.fetchPage pid).2.nextPageId = st.nextPageId := by
  have heq : st.fetchPage pid = (some fid, { st with
      frames := setFrame st.frames fid
        { st.frames.getD fid frameDefault with
          pinCount := (st.frames.getD fid frameDefault).pinCount + 1 },
      repl := (st.repl.recordAccess fid).setEvictable fid false }) := by
    simp only [BPM.fetchPage, hl]
  rw [heq]
  have hget : (setFrame st.frames fid
      { st.frames.getD fid frameDefault with
        pinCount := (st.frames.getD fid frameDefault).pinCount + 1 }).getD fid frameDefault =
      { st.frames.getD fid frameDefault with
        pinCount := (st.frames.getD fid frameDefault).pinCount + 1 } := by
    simp only [setFrame]
    exact getD_set_self _ _ _ _ hlen
  refine ⟨rfl, rfl, ?_, ?_, ?_, ?_, ?_, rfl, rfl, rfl, rfl, rfl⟩
  · dsimp only
    rw [hget]
  · dsimp only
    rw [hget]
  · dsimp only
    rw [hget]
  · dsimp only
    rw [hget]
  · intro j hj
    dsimp only
    simp only [setFrame]
    exact get?_set_ne _ _ _ hj _

/-- Witness for the resident-fetch theorem at the one-page pool
`c7WitBPM`. -/
theorem c9_fetch_resident_effect_witness : (c7WitBPM.fetchPage 0).1 = some 0 :=
  (c9_fetch_resident_effect c7WitBPM 0 0 (by decide) (by decide)).1

/-! ## Page-id allocation -/

theorem acquire_nextPageId (st : BPM) :
    ∀ fid st2, st.acquire = some (fid, st2) → st2.nextPageId = st.nextPageId := by
  intro fid st2 h
  cases hf : st.freeList with
  | cons x rest =>
    simp [BPM.acquire, hf] at h
    rw [← h.2]
  | nil =>
    cases he : st.repl.evict with
    | mk o r2 =>
      cases o with
      | none =>
        simp [BPM.acquire, hf, he] at h
      | some vfid =>
        simp [BPM.acquire, hf, he] at h
        rw [← h.2]
        dsimp only
        split <;> rfl

theorem newPage_fail {st st2 : BPM} (h : st.newPage = (none, st2)) : st2 = st := by
  cases hac : st.acquire with
  | none =>
    simp [BPM.newPage, hac] at h
    rw [← h]
  | some pr =>
    obtain ⟨fid, st1⟩ := pr
    simp [BPM.newPage, hac] at h

theorem newPage_success {st st2 : BPM} {pf : Int × Nat} (h : st.newPage = (some pf, st2)) :
    pf.1 = st.nextPageId ∧ st2.nextPageId = st.nextPageId + 1 := by
  cases hac : st.acquire with
  | none =>
    simp [BPM.newPage, hac] at h
  | some pr =>
    obtain ⟨fid, st1⟩ := pr
    have hn := acquire_nextPageId st fid st1 hac
    simp [BPM.newPage, hac] at h
    obtain ⟨h1, h2⟩ := h
    constructor
    · rw [← h1]
      dsimp only
      exact hn
    · rw [← h2]
      dsimp only
      rw [hn]

theorem foldl_nextPageId {β : Type} (body : BPM → β → BPM)
    (hbody : ∀ s b, (body s b).nextPageId = s.nextPageId) :
    ∀ (l : List β) (s : BPM), (l.foldl body s).nextPageId = s.nextPageId := by
  intro l
  induction l with
  | nil => intro s; rfl
  | cons x xs ih =>
    intro s
    rw [List.foldl_cons, ih, hbody]

theorem flushAll_nextPageId (st : BPM) : (st.flushAll).nextPageId = st.nextPageId := by
  unfold BPM.flushAll
  apply foldl_nextPageId
  intro s i
  dsimp only
  split
  · rfl
  · split
    · rfl
    · split <;> rfl

theorem applyBOp_nextPageId (st : BPM) (op : BOp) (hop : op ≠ BOp.newp) :
    (applyBOp st op).nextPageId = st.nextPageId := by
  cases op with
  | newp => exact absurd rfl hop
  | fetch pid =>
    show ((st.fetchPage pid).2).nextPageId = st.nextPageId
    cases hl : lookupKey st.pageTable pid with
    | some fid => simp [BPM.fetchPage, hl]
    | none =>
      cases hac : st.acquire with
      | none => simp [BPM.fetchPage, hl, hac]
      | some pr =>
        obtain ⟨fid, st1⟩ := pr
        have hn := acquire_nextPageId st fid st1 hac
        simp only [BPM.fetchPage, hl, hac]
        exact hn
  | unpin pid d =>
    show ((st.unpinPage pid d).2).nextPageId = st.nextPageId
    cases hl : lookupKey st.pageTable pid with
    | none => simp [BPM.unpinPage, hl]
    | some fid =>
      simp only [BPM.unpinPage, hl]
      split
      · rfl
      · split <;> rfl
  | flush pid =>
    show ((st.flushPage pid).2).nextPageId = st.nextPageId
    by_cases hi : pid = -1
    · simp [BPM.flushPage, hi]
    · cases hl : lookupKey st.pageTable pid with
      | none => simp [BPM.flushPage, hi, hl]
      | some fid => simp [BPM.flushPage, hi, hl]
  | flushAll => exact flushAll_nextPageId st
  | del pid =>
    show ((st.deletePage pid).2).nextPageId = st.nextPageId
    cases hl : lookupKey st.pageTable pid with
    | none => simp [BPM.deletePage, hl]
    | some fid =>
      simp only [BPM.deletePage, hl]
      split
      · rfl
      · split <;> rfl
  | wr fid bytes => rfl

theorem rangeInt_succ (start : Int) (n : Nat) :
    rangeInt start (n + 1) = start :: rangeInt (start + 1) n := by
  unfold rangeInt
  rw [List.range_succ_eq_map, List.map_cons, List.map_map]
  congr 1
  · push_cast
    ring
  · apply List.map_congr_left
    intro i _
    simp only [Function.comp_apply]
    push_cast
    ring

theorem rangeInt_length (s : Int) (n : Nat) : (rangeInt s n).length = n := by
  unfold rangeInt
  rw [List.length_map, List.length_range]

theorem collectNews_spec_aux (ops : List BOp) :
    ∀ st : BPM, ∃ m, collectNews st ops = rangeInt st.nextPageId m := by
  induction ops with
  | nil =>
    intro st
    exact ⟨0, rfl⟩
  | cons op rest ih =>
    intro st
    cases op with
    | newp =>
      cases hnp : st.newPage with
      | mk o st2 =>
        cases o with
        | none =>
          have hst : st2 = st := newPage_fail hnp
          have hc : collectNews st (BOp.newp :: rest) = collectNews st2 rest := by
            simp [collectNews, hnp]
          obtain ⟨m, hm⟩ := ih st2
          refine ⟨m, ?_⟩
          rw [hc, hm, hst]
        | some pf =>
          obtain ⟨hpid, hnext⟩ := newPage_success hnp
          have hc : collectNews st (BOp.newp :: rest) = pf.1 :: collectNews st2 rest := by
            simp [collectNews, hnp]
          obtain ⟨m, hm⟩ := ih st2
          refine ⟨m + 1, ?_⟩
          rw [hc, hm, hnext, hpid, rangeInt_succ]
    | fetch pid =>
      obtain ⟨m, hm⟩ := ih (applyBOp st (BOp.fetch pid))
      refine ⟨m, ?_⟩
      rw [show collectNews st (BOp.fetch pid :: rest) =
          collectNews (applyBOp st (BOp.fetch pid)) rest from rfl, hm,
        applyBOp_nextPageId st _ (by simp)]
    | unpin pid d =>
      obtain ⟨m, hm⟩ := ih (applyBOp st (BOp.unpin pid d))
      refine ⟨m, ?_⟩
      rw [show collectNews st (BOp.unpin pid d :: rest) =
          collectNews (applyBOp st (BOp.unpin pid d)) rest from rfl, hm,
        applyBOp_nextPageId st _ (by simp)]
    | flush pid =>
      obtain ⟨m, hm⟩ := ih (applyBOp st (BOp.flush pid))
      refine ⟨m, ?_⟩
      rw [show collectNews st (BOp.flush pid :: rest) =
          collectNews (applyBOp st (BOp.flush pid)) rest from rfl, hm,
        applyBOp_nextPageId st _ (by simp)]
    | flushAll =>
      obtain ⟨m, hm⟩ := ih (applyBOp st BOp.flushAll)
      refine ⟨m, ?_⟩
      rw [show collectNews st (BOp.flushAll :: rest) =
          collectNews (applyBOp st BOp.flushAll) rest from rfl, hm,
        applyBOp_nextPageId st _ (by simp)]
    | del pid =>
      obtain ⟨m, hm⟩ := ih (applyBOp st (BOp.del pid))
      refine ⟨m, ?_⟩
      rw [show collectNews st (BOp.del pid :: rest) =
          collectNews (applyBOp st (BOp.del pid)) rest from rfl, hm,
        applyBOp_nextPageId st _ (by simp)]
    | wr fid bytes =>
      obtain ⟨m, hm⟩ := ih (applyBOp st (BOp.wr fid bytes))
      refine ⟨m, ?_⟩
      rw [show collectNews st (BOp.wr fid bytes :: rest) =
          collectNews (applyBOp st (BOp.wr fid bytes)) rest from rfl, hm,
        applyBOp_nextPageId st _ (by simp)]

theorem collectNews_spec (ops : List BOp) (st : BPM) :
    collectNews st ops = rangeInt st.nextPageId (collectNews st ops).length := by
  obtain ⟨m, hm⟩ := collectNews_spec_aux ops st
  rw [hm, rangeInt_length]

/-- C10: on a freshly constructed buffer pool `next_page_id_` starts at 0
and is bumped only by a successful `new_page` (`AllocatePage` is a
post-increment, `DeallocatePage` a no-op), so over any operation sequence
the successful `new_page` calls return `0, 1, 2, …` in order — the n-th
returns `n - 1`.  The first allocated id is `0 = HEADER_PAGE_ID`, the
page `BPlusTree::UpdateRootPageId` reserves for the
`(index_name, root_page_id)` records. -/
theorem c10_page_id_allocation (n k : Nat) (ops : List BOp) :
    collectNews (BPM.mkInit n k) ops =
      rangeInt 0 (collectNews (BPM.mkInit n k) ops).length ∧
    headerPageId = 0 ∧
    (∀ m : Nat, (rangeInt 0 (m + 1)).head? = some headerPageId) := by
  refine ⟨?_, rfl, ?_⟩
  · have h := collectNews_spec ops (BPM.mkInit n k)
    simpa [BPM.mkInit] using h
  · intro m
    rw [rangeInt_succ]
    rfl

/-! ## Page-store lemmas for the internal split -/

theorem lookupKey_updateKey_ne [DecidableEq κ] {α : Type} (l : List (κ × α)) (i j : κ)
    (f : α → α) (h : j ≠ i) : lookupKey (updateKey l i f) j = lookupKey l j := by
  induction l with
  | nil => rfl
  | cons e rest ih =>
    obtain ⟨a, b⟩ := e
    by_cases hai : a = i
    · subst hai
      rw [updateKey_cons_eq, lookupKey_cons_ne h, lookupKey_cons_ne h]
      exact ih
    · rw [updateKey_cons_ne (fun hh => hai hh.symm)]
      by_cases hja : j = a
      · subst hja
        rw [lookupKey_cons_eq, lookupKey_cons_eq]
      · rw [lookupKey_cons_ne hja, lookupKey_cons_ne hja]
        exact ih

theorem lookupKey_updateKey_self [DecidableEq κ] {α : Type} (l : List (κ × α)) (i : κ)
    (f : α → α) : lookupKey (updateKey l i f) i = (lookupKey l i).map f := by
  induction l with
  | nil => rfl
  | cons e rest ih =>
    obtain ⟨a, b⟩ := e
    by_cases hai : a = i
    · subst hai
      rw [updateKey_cons_eq, lookupKey_cons_eq, lookupKey_cons_eq]
      rfl
    · rw [updateKey_cons_ne (fun hh => hai hh.symm), lookupKey_cons_ne (fun hh => hai hh.symm),
        lookupKey_cons_ne (fun hh => hai hh.symm)]
      exact ih

theorem getPage_setParent_ne (st : BTree) (c p q : Int) (h : q ≠ c) :
    getPage (setParent st c p) q = getPage st q := by
  unfold getPage setParent
  dsimp only
  exact lookupKey_updateKey_ne st.pages c q _ h

theorem getPage_setParent_self (st : BTree) (c p : Int) :
    getPage (setParent st c p) c = (getPage st c).map (fun n => withParent n p) := by
  unfold getPage setParent
  dsimp only
  exact lookupKey_updateKey_self st.pages c _

theorem getPage_setNode_ne (st : BTree) (pid q : Int) (n : BNode) (h : q ≠ pid) :
    getPage (setNode st pid n) q = getPage st q := by
  unfold getPage setNode
  dsimp only
  exact lookupKey_updateKey_ne st.pages pid q _ h

theorem getPage_setNode_self (st : BTree) (pid : Int) (n : BNode) :
    getPage (setNode st pid n) pid = (getPage st pid).map (fun _ => n) := by
  unfold getPage setNode
  dsimp only
  exact lookupKey_updateKey_self st.pages pid _

theorem nodeParentOf_withParent (n : BNode) (p : Int) : nodeParentOf (withParent n p) = p := by
  cases n <;> rfl

theorem reparent_foldl_notmem (p : Int) (q : Int) :
    ∀ (ids : List Int) (st : BTree), q ∉ ids →
      getPage (ids.foldl (fun s c => setParent s c p) st) q = getPage st q := by
  intro ids
  induction ids with
  | nil =>
    intro st _
    rfl
  | cons c0 rest ih =>
    intro st hq
    simp only [List.mem_cons, not_or] at hq
    rw [List.foldl_cons, ih _ hq.2, getPage_setParent_ne st c0 p q hq.1]

theorem reparent_foldl_mem (p : Int) :
    ∀ (ids : List Int) (st : BTree), (∀ c ∈ ids, ∃ nd, getPage st c = some nd) →
      ∀ c ∈ ids, ∃ nd, getPage (ids.foldl (fun s c2 => setParent s c2 p) st) c = some nd ∧
        nodeParentOf nd = p := by
  intro ids
  induction ids with
  | nil =>
    intro st _ c hc
    simp at hc
  | cons c0 rest ih =>
    intro st hres c hc
    rw [List.foldl_cons]
    have hres1 : ∀ x ∈ rest, ∃ nd, getPage (setParent st c0 p) x = some nd := by
      intro x hx
      by_cases hxc : x = c0
      · subst hxc
        obtain ⟨nd0, hnd0⟩ := hres x (List.mem_cons_self _ _)
        exact ⟨withParent nd0 p, by rw [getPage_setParent_self, hnd0]; rfl⟩
      · obtain ⟨nd0, hnd0⟩ := hres x (List.mem_cons_of_mem _ hx)
        exact ⟨nd0, by rw [getPage_setParent_ne st c0 p x hxc]; exact hnd0⟩
    rcases List.mem_cons.mp hc with hc0 | hcr
    · subst hc0
      by_cases hmem : c ∈ rest
      · exact ih (setParent st c p) hres1 c hmem
      · obtain ⟨nd0, hnd0⟩ := hres c (List.mem_cons_self _ _)
        refine ⟨withParent nd0 p, ?_, nodeParentOf_withParent nd0 p⟩
        rw [reparent_foldl_notmem p c rest _ hmem, getPage_setParent_self, hnd0]
        rfl
    · exact ih (setParent st c0 p) hres1 c hcr

theorem insertAt_length {α : Type} (a : α) : ∀ (n : Nat) (l : List α),
    (insertAt n a l).length = l.length + 1 := by
  intro n
  induction n with
  | zero =>
    intro l
    rfl
  | succ m ih =>
    intro l
    cases l with
    | nil => rfl
    | cons x xs =>
      show (x :: insertAt m a xs).length = (x :: xs).length + 1
      simp [ih xs]

theorem mem_insertAt {α : Type} (a x : α) : ∀ (n : Nat) (l : List α),
    x ∈ insertAt n a l → x = a ∨ x ∈ l := by
  intro n
  induction n with
  | zero =>
    intro l hx
    rcases List.mem_cons.mp hx with h | h
    · exact Or.inl h
    · exact Or.inr h
  | succ m ih =>
    intro l hx
    cases l with
    | nil =>
      rcases List.mem_cons.mp hx with h | h
      · exact Or.inl h
      · simp at h
    | cons y ys =>
      rcases List.mem_cons.mp hx with h | h
      · exact Or.inr (by simp [h])
      · rcases ih ys h with h2 | h2
        · exact Or.inl h2
        · exact Or.inr (List.mem_cons_of_mem _ h2)

theorem idxOf?_lt_length [DecidableEq α] (a : α) :
    ∀ (l : List α) (i : Nat), idxOf? a l = some i → i < l.length := by
  intro l
  induction l with
  | nil =>
    intro i h
    simp [idxOf?] at h
  | cons x xs ih =>
    intro i h
    simp only [idxOf?] at h
    by_cases hx : x = a
    · rw [if_pos hx] at h
      have h0 : (0 : Nat) = i := by injection h
      simp only [List.length_cons]
      omega
    · rw [if_neg hx, Option.map_eq_some'] at h
      obtain ⟨j, hj, hji⟩ := h
      have := ih j hj
      simp only [List.length_cons]
      omega

theorem idxOf?_isSome_of_mem [DecidableEq α] (a : α) :
    ∀ l : List α, a ∈ l → ∃ i, idxOf? a l = some i := by
  intro l
  induction l with
  | nil =>
    intro h
    simp at h
  | cons x xs ih =>
    intro h
    by_cases hx : x = a
    · exact ⟨0, by simp [idxOf?, hx]⟩
    · have hmem : a ∈ xs := by
        rcases List.mem_cons.mp h with h1 | h1
        · exact absurd h1.symm hx
        · exact h1
      obtain ⟨i, hi⟩ := ih hmem
      refine ⟨i + 1, ?_⟩
      simp only [idxOf?, if_neg hx, hi]
      rfl

theorem parentInsertIdx_bounds (p : InternalNode) (oldId : Int) (h : oldId ∈ childIds p) :
    1 ≤ parentInsertIdx p oldId ∧ parentInsertIdx p oldId ≤ 1 + p.entries.length := by
  obtain ⟨i, hi⟩ := idxOf?_isSome_of_mem oldId (childIds p) h
  have hlt := idxOf?_lt_length oldId (childIds p) i hi
  simp only [childIds, List.length_cons, List.length_map] at hlt
  unfold parentInsertIdx
  rw [hi]
  simp only [Option.map_some', Option.getD_some]
  omega

/-- C2 amended: whenever split propagation reaches a full parent internal
node (`size == max_size`), `InsertIntoParent` begins the split — it
builds the logical `size + 1` array, allocates a fresh sibling page
(left `Init`-ed at size 0, its parent pointer copied), and truncates the
original node to its first `⌊(size + 1) / 2⌋` children (the C++ integer
division `(parent_size + 1) / 2`, NOT `⌈(size + 1) / 2⌉`) — and then
throws `std::out_of_range` from `SetValueAt(0,·)` on the size-0 sibling
(b_plus_tree.cpp:713; the sibling's `SetSize` comes only at line 718).
The insert aborts: no key is promoted to the grandparent, no children
move to the sibling or have their `parent_page_id` rewritten, no upward
recursion happens, the root id is unchanged, and every page other than
the truncated parent and the empty sibling is exactly as before. -/
theorem c2_internal_split_amended (fuel : Nat) (st : BTree) (oldId : Int) (key : Nat)
    (newId : Int) (oldNode : BNode) (p : InternalNode) (parentId : Int)
    (h1 : getPage st oldId = some oldNode)
    (h2 : nodeParentOf oldNode = parentId)
    (h3 : ¬ parentId = -1)
    (h4 : getPage st parentId = some (.internal p))
    (h5 : 1 + p.entries.length = st.internalMax)
    (h6 : parentId ≠ st.nextId) :
    (insertIntoParent (fuel + 1) st oldId key newId).2 = true ∧
    (insertIntoParent (fuel + 1) st oldId key newId).1.rootId = st.rootId ∧
    (insertIntoParent (fuel + 1) st oldId key newId).1.nextId = st.nextId + 1 ∧
    getPage (insertIntoParent (fuel + 1) st oldId key newId).1 parentId = some (.internal
      ⟨p.firstChild,
       (insertAt (parentInsertIdx p oldId - 1) (key, newId) p.entries).take
         ((st.internalMax + 1) / 2 - 1),
       p.parent⟩) ∧
    internalChildCount (insertIntoParent (fuel + 1) st oldId key newId).1 parentId =
      (st.internalMax + 1) / 2 ∧
    getPage (insertIntoParent (fuel + 1) st oldId key newId).1 st.nextId =
      some (.internalEmpty p.parent) ∧
    (∀ q : Int, q ≠ parentId → q ≠ st.nextId →
      getPage (insertIntoParent (fuel + 1) st oldId key newId).1 q = getPage st q) := by
  have htlen : (insertAt (parentInsertIdx p oldId - 1) (key, newId) p.entries).length =
      st.internalMax := by
    rw [insertAt_length]
    omega
  have hred : insertIntoParent (fuel + 1) st oldId key newId =
      (setNode { st with
          nextId := st.nextId + 1,
          pages := (st.nextId, BNode.internalEmpty p.parent) :: st.pages } parentId
        (.internal ⟨p.firstChild,
          (insertAt (parentInsertIdx p oldId - 1) (key, newId) p.entries).take
            ((1 + p.entries.length + 1) / 2 - 1), p.parent⟩), true) := by
    simp only [insertIntoParent]
    rw [h1]
    simp only [h2]
    rw [if_neg h3, h4]
    dsimp only
    rw [if_neg (show ¬ 1 + p.entries.length < st.internalMax by omega)]
  rw [h5] at hred
  have hgB : getPage { st with
      nextId := st.nextId + 1,
      pages := (st.nextId, BNode.internalEmpty p.parent) :: st.pages } parentId =
      some (.internal p) := by
    show lookupKey ((st.nextId, BNode.internalEmpty p.parent) :: st.pages) parentId = _
    rw [lookupKey_cons_ne h6]
    exact h4
  rw [hred]
  dsimp only
  have hg4 : getPage (setNode { st with
      nextId := st.nextId + 1,
      pages := (st.nextId, BNode.internalEmpty p.parent) :: st.pages } parentId
        (.internal ⟨p.firstChild,
          (insertAt (parentInsertIdx p oldId - 1) (key, newId) p.entries).take
            ((st.internalMax + 1) / 2 - 1), p.parent⟩)) parentId = some (.internal
      ⟨p.firstChild,
       (insertAt (parentInsertIdx p oldId - 1) (key, newId) p.entries).take
         ((st.internalMax + 1) / 2 - 1),
       p.parent⟩) := by
    rw [getPage_setNode_self, hgB]
    rfl
  refine ⟨rfl, rfl, rfl, hg4, ?_, ?_, ?_⟩
  · simp only [internalChildCount, hg4]
    show (childIds ⟨p.firstChild,
      (insertAt (parentInsertIdx p oldId - 1) (key, newId) p.entries).take
        ((st.internalMax + 1) / 2 - 1), p.parent⟩).length = (st.internalMax + 1) / 2
    simp only [childIds, List.length_cons, List.length_map, List.length_take]
    rw [htlen]
    omega
  · rw [getPage_setNode_ne _ _ _ _ (Ne.symm h6)]
    show lookupKey ((st.nextId, BNode.internalEmpty p.parent) :: st.pages) st.nextId = _
    rw [lookupKey_cons_eq]
  · intro q hq1 hq2
    rw [getPage_setNode_ne _ _ _ _ hq1]
    show lookupKey ((st.nextId, BNode.internalEmpty p.parent) :: st.pages) q = getPage st q
    rw [lookupKey_cons_ne hq2]
    rfl

/-- Witness for the aborted-internal-split theorem at the concrete full
parent of `c2WitTree` (page 10): the call throws and the original node
keeps `⌊(4 + 1) / 2⌋ = 2` children. -/
theorem c2_internal_split_amended_witness :
    (insertIntoParent 1 c2WitTree 3 13 4).2 = true ∧
    internalChildCount (insertIntoParent 1 c2WitTree 3 13 4).1 10 = 2 := by
  have h := c2_internal_split_amended 0 c2WitTree 3 13 4
    (.leaf ⟨[(10, 10), (11, 11), (12, 12)], 10, 4⟩) ⟨0, [(4, 1), (7, 2), (10, 3)], -1⟩ 10
    (by decide) (by decide) (by decide) (by decide) (by decide) (by decide)
  exact ⟨h.1, h.2.2.2.2.1⟩

end DB
